import Mathlib

/-!
Verification of the AssemblySim production-line simulator.

The definitions below are a shallow embedding of the Rust sources:
  * `src/model/time.rs`      — `SimulationTime`, `Event`, `Simulator`
  * `src/model/staff.rs`     — `Role`, `Staff`
  * `src/model/machine.rs`   — `MachineType`
  * `src/model/staff_scheduling.rs` — `MachineState`, `ProductionSimulator`
  * `src/main.rs`            — `rebalance`, `PendingJob`, `try_start_jobs`,
                               `handle_event` (the dispatcher / driver pieces)

Machine integers (`u32`) are modelled as `Nat`: the code uses
`saturating_sub` for every subtraction that could underflow (which is
exactly `Nat` subtraction) and plain `+` elsewhere, and no claim depends
on wrap-around at `2^32`.  Rust's `BinaryHeap<Event>` is modelled as a
list whose `pop` removes a greatest element with respect to the source's
`Ord for Event` (which reverses the comparison on `time`, so a greatest
element is one of minimal time); everything the program observes about
the heap — the min-time-first pop — is preserved by this model, and the
unspecified tie order of the heap is represented by the particular
element the model picks among equal-time events.  Rust `HashMap`s are
modelled as association lists (first-match lookup, in-place replace on
insert).
-/

namespace AssemblySim

/-- EventType from src/model/time.rs. -/
inductive EventType where
  | ProcessStart (machine_id process_id : Nat)
  | ProcessComplete (machine_id process_id : Nat)
  | MaterialArrival (material_id : Nat)
  | StaffAvailable (staff_id : Nat)
  | StaffAssigned (staff_id machine_id process_id : Nat)
  | StaffReleased (staff_id machine_id : Nat)
  | StaffUnavailable (machine_id process_id : Nat)
  deriving DecidableEq, Repr

/-- Event from src/model/time.rs (`SimulationTime` is its raw `u32`). -/
structure Event where
  time : Nat
  event_type : EventType
  deriving DecidableEq, Repr

/-- impl Ord for Event (src/model/time.rs lines 131-136): the comparison
on `time` is reversed so that `BinaryHeap` behaves as a min-heap. -/
def Event.cmp (a b : Event) : Ordering := compare b.time a.time

/-- Model of `BinaryHeap<Event>::pop`: removes a greatest element per
`Event.cmp` (hence an element of minimal `time`), returning it together
with the remaining queue. -/
def heapPop : List Event → Option (Event × List Event)
  | [] => none
  | e :: es =>
    match heapPop es with
    | none => some (e, [])
    | some (m, rest) =>
      if Event.cmp e m = Ordering.lt then some (m, e :: rest) else some (e, es)

/-- Simulator from src/model/time.rs. -/
structure Simulator where
  current_time : Nat
  event_queue : List Event
  deriving DecidableEq, Repr

/-- Simulator::new. -/
def Simulator.new : Simulator :=
  { current_time := 0, event_queue := [] }

/-- Simulator::schedule_event (a push into the heap). -/
def Simulator.schedule_event (s : Simulator) (time : Nat) (event_type : EventType) :
    Simulator :=
  { s with event_queue := { time := time, event_type := event_type } :: s.event_queue }

/-- Simulator::has_events. -/
def Simulator.has_events (s : Simulator) : Bool :=
  !s.event_queue.isEmpty

/-- Simulator::next_event (pop from the heap). -/
def Simulator.next_event (s : Simulator) : Option Event × Simulator :=
  match heapPop s.event_queue with
  | none => (none, s)
  | some (e, rest) => (some e, { s with event_queue := rest })

/-- Simulator::peek_next_event. -/
def Simulator.peek_next_event (s : Simulator) : Option Event :=
  (heapPop s.event_queue).map Prod.fst

/-- Simulator::step: pop the next event and advance `current_time` to its
time; `none` when the queue is exhausted. -/
def Simulator.step (s : Simulator) : Option Event × Simulator :=
  match heapPop s.event_queue with
  | none => (none, s)
  | some (e, rest) => (some e, { current_time := e.time, event_queue := rest })

/-- Simulator::elapsed_time. -/
def Simulator.elapsed_time (s : Simulator) : Nat := s.current_time

/-- Simulator::set_time. -/
def Simulator.set_time (s : Simulator) (t : Nat) : Simulator :=
  { s with current_time := t }

/-- Role from src/model/staff.rs. -/
structure Role where
  id : Nat
  name : String
  machine_ids : List Nat
  deriving DecidableEq, Repr

/-- Role::new. -/
def Role.new (id : Nat) (name : String) : Role :=
  { id := id, name := name, machine_ids := [] }

/-- Role::specialist. -/
def Role.specialist (id : Nat) (name : String) (machine_ids : List Nat) : Role :=
  { id := id, name := name, machine_ids := machine_ids }

/-- Role::can_work_on. -/
def Role.can_work_on (r : Role) (machine_id : Nat) : Bool :=
  if r.machine_ids.isEmpty then true else r.machine_ids.contains machine_id

/-- Staff from src/model/staff.rs. -/
structure Staff where
  id : Nat
  name : String
  role : Role
  is_available : Bool
  current_machine : Option Nat
  available_at : Nat
  idle_time : Nat
  last_status_change : Nat
  deriving DecidableEq, Repr

/-- Staff::new. -/
def Staff.new (id : Nat) (name : String) (role : Role) : Staff :=
  { id := id, name := name, role := role, is_available := true,
    current_machine := none, available_at := 0, idle_time := 0,
    last_status_change := 0 }

/-- Staff::can_work_on. -/
def Staff.can_work_on (s : Staff) (machine_id : Nat) : Bool :=
  s.role.can_work_on machine_id

/-- Staff::assign_to_machine.  The Rust method mutates `self` and returns
a `bool`; here it returns the flag together with the updated staff.
`saturating_sub` is `Nat` subtraction. -/
def Staff.assign_to_machine (s : Staff) (machine_id duration current_time : Nat) :
    Bool × Staff :=
  if s.is_available && s.can_work_on machine_id then
    (true,
     { s with
       idle_time := s.idle_time + (current_time - s.last_status_change),
       is_available := false,
       current_machine := some machine_id,
       available_at := current_time + duration,
       last_status_change := current_time })
  else
    (false, s)

/-- Staff::release_from_machine: guarded no-op before `available_at`. -/
def Staff.release_from_machine (s : Staff) (current_time : Nat) : Staff :=
  if s.available_at ≤ current_time then
    { s with is_available := true, current_machine := none,
             last_status_change := current_time }
  else s

/-- Staff::accumulate_idle_until. -/
def Staff.accumulate_idle_until (s : Staff) (current_time : Nat) : Staff :=
  if s.is_available && decide (s.last_status_change < current_time) then
    { s with idle_time := s.idle_time + (current_time - s.last_status_change),
             last_status_change := current_time }
  else s

/-- MachineType from src/model/machine.rs. -/
structure MachineType where
  id : Nat
  name : String
  staff_required : Nat
  is_automated : Bool
  deriving DecidableEq, Repr

/-- MachineType::new (a manual machine). -/
def MachineType.new (id : Nat) (name : String) (staff_required : Nat) : MachineType :=
  { id := id, name := name, staff_required := staff_required, is_automated := false }

/-- MachineType::automated. -/
def MachineType.automated (id : Nat) (name : String) : MachineType :=
  { id := id, name := name, staff_required := 0, is_automated := true }

/-- MachineType::needs_staff. -/
def MachineType.needs_staff (m : MachineType) : Bool :=
  !m.is_automated && decide (0 < m.staff_required)

/-- MachineState from src/model/staff_scheduling.rs. -/
structure MachineState where
  machine : MachineType
  is_operating : Bool
  assigned_staff : List Nat
  waiting_for : Option String
  idle_time : Nat
  last_status_change : Nat
  deriving DecidableEq, Repr

/-- MachineState::new. -/
def MachineState.new (machine : MachineType) : MachineState :=
  { machine := machine, is_operating := false, assigned_staff := [],
    waiting_for := none, idle_time := 0, last_status_change := 0 }

/-- ProductionSimulator from src/model/staff_scheduling.rs. -/
structure ProductionSimulator where
  simulator : Simulator
  machines : List MachineState
  staff : List Staff
  deriving DecidableEq, Repr

/-- ProductionSimulator::new. -/
def ProductionSimulator.new : ProductionSimulator :=
  { simulator := Simulator.new, machines := [], staff := [] }

/-- ProductionSimulator::add_staff. -/
def ProductionSimulator.add_staff (p : ProductionSimulator) (s : Staff) :
    ProductionSimulator :=
  { p with staff := p.staff ++ [s] }

/-- ProductionSimulator::add_machine. -/
def ProductionSimulator.add_machine (p : ProductionSimulator) (m : MachineType) :
    ProductionSimulator :=
  { p with machines := p.machines ++ [MachineState.new m] }

/-- The staff-collection loop of `try_start_process` (lines 99-106): scan
staff in registration order, collect indices of staff that are available
and role-eligible, breaking as soon as `staff_needed` many are found. -/
def collectAvailable (staffList : List Staff) (machine_id needed idx : Nat)
    (acc : List Nat) : List Nat :=
  match staffList with
  | [] => acc
  | s :: rest =>
    if s.is_available && s.can_work_on machine_id then
      let acc2 := acc ++ [idx]
      if needed ≤ acc2.length then acc2
      else collectAvailable rest machine_id needed (idx + 1) acc2
    else collectAvailable rest machine_id needed (idx + 1) acc

/-- The staff-assignment loop of `try_start_process` (lines 126-139): for
each collected index, assign that staff member, record the staff id on
the machine, and schedule a `StaffReleased` event.  Indices produced by
`collectAvailable` are always in range; out-of-range indices (which
would be a Rust index panic) are ignored here. -/
def assignLoop (indices : List Nat) (staffList : List Staff) (assigned : List Nat)
    (sim : Simulator) (machine_id duration current_time : Nat) :
    List Staff × List Nat × Simulator :=
  match indices with
  | [] => (staffList, assigned, sim)
  | idx :: rest =>
    match staffList.get? idx with
    | none => assignLoop rest staffList assigned sim machine_id duration current_time
    | some s =>
      let staff_id := s.id
      let staffList' :=
        staffList.set idx (s.assign_to_machine machine_id duration current_time).2
      let sim' := sim.schedule_event (current_time + duration)
        (EventType.StaffReleased staff_id machine_id)
      assignLoop rest staffList' (assigned ++ [staff_id]) sim'
        machine_id duration current_time

/-- ProductionSimulator::try_start_process (src/model/staff_scheduling.rs
lines 65-151). -/
def ProductionSimulator.try_start_process (p : ProductionSimulator)
    (machine_id process_id duration current_time : Nat) :
    Bool × ProductionSimulator :=
  match p.machines.get? machine_id with
  | none => (false, p)
  | some machine =>
    if machine.machine.is_automated then
      let machine' :=
        { machine with
          idle_time := machine.idle_time + (current_time - machine.last_status_change),
          last_status_change := current_time,
          is_operating := true,
          waiting_for := none }
      let sim' := p.simulator.schedule_event (current_time + duration)
        (EventType.ProcessComplete machine_id process_id)
      (true, { p with machines := p.machines.set machine_id machine',
                      simulator := sim' })
    else
      let staff_needed := machine.machine.staff_required
      let available_staff := collectAvailable p.staff machine_id staff_needed 0 []
      if available_staff.length < staff_needed then
        let sim' := p.simulator.schedule_event current_time
          (EventType.StaffUnavailable machine_id process_id)
        let machine' := { machine with waiting_for := some "Staff" }
        (false, { p with simulator := sim',
                         machines := p.machines.set machine_id machine' })
      else
        let machine1 :=
          { machine with
            idle_time := machine.idle_time + (current_time - machine.last_status_change),
            last_status_change := current_time,
            is_operating := true,
            waiting_for := none }
        let r := assignLoop available_staff p.staff machine1.assigned_staff
          p.simulator machine_id duration current_time
        let machine2 := { machine1 with assigned_staff := r.2.1 }
        let sim' := r.2.2.schedule_event (current_time + duration)
          (EventType.ProcessComplete machine_id process_id)
        (true, { simulator := sim',
                 machines := p.machines.set machine_id machine2,
                 staff := r.1 })

/-- Per-staff body of the staff loop in `finalize_idle_time` (lines
194-219): force-release past `available_at`, self-heal a busy staff
whose recorded machine is unknown / idle / no longer lists them, then
accumulate idle time. -/
def finalizeStaffOne (machines : List MachineState) (current_time : Nat)
    (s : Staff) : Staff :=
  let s1 := if !s.is_available && decide (s.available_at ≤ current_time)
            then s.release_from_machine current_time else s
  let s2 :=
    if s1.is_available then s1
    else
      match s1.current_machine with
      | none => s1
      | some machine_id =>
        match machines.get? machine_id with
        | some machine =>
          let still_assigned := machine.assigned_staff.contains s1.id
          if !machine.is_operating || !still_assigned then
            s1.release_from_machine current_time
          else s1
        | none => s1.release_from_machine current_time
  s2.accumulate_idle_until current_time

/-- The inner lookup of the machine loops: release the first staff member
with the given id (Rust `staff.iter_mut().find(|s| s.id == staff_id)`). -/
def releaseFirstById (staffList : List Staff) (staff_id current_time : Nat) :
    List Staff :=
  match staffList with
  | [] => []
  | s :: rest =>
    if s.id = staff_id then s.release_from_machine current_time :: rest
    else s :: releaseFirstById rest staff_id current_time

/-- Release every staff id drained from a machine's `assigned_staff`. -/
def releaseAllById (ids : List Nat) (staffList : List Staff) (current_time : Nat) :
    List Staff :=
  match ids with
  | [] => staffList
  | staff_id :: rest =>
    releaseAllById rest (releaseFirstById staffList staff_id current_time) current_time

/-- The machine loop of `finalize_idle_time` (lines 220-235): for every
non-operating machine, drain and release any staff still assigned, then
accrue idle time since the last status change.  (Draining an empty
`assigned_staff` is a no-op, so the source's emptiness check is elided.) -/
def finalizeMachines (ms : List MachineState) (staffList : List Staff)
    (current_time : Nat) : List MachineState × List Staff :=
  match ms with
  | [] => ([], staffList)
  | m :: rest =>
    if m.is_operating then
      let r := finalizeMachines rest staffList current_time
      (m :: r.1, r.2)
    else
      let staffList1 := releaseAllById m.assigned_staff staffList current_time
      let m1 := { m with assigned_staff := [] }
      let m2 :=
        if m1.last_status_change < current_time then
          { m1 with idle_time := m1.idle_time + (current_time - m1.last_status_change),
                    last_status_change := current_time }
        else m1
      let r := finalizeMachines rest staffList1 current_time
      (m2 :: r.1, r.2)

/-- ProductionSimulator::finalize_idle_time (lines 193-236). -/
def ProductionSimulator.finalize_idle_time (p : ProductionSimulator)
    (current_time : Nat) : ProductionSimulator :=
  let staff1 := p.staff.map (finalizeStaffOne p.machines current_time)
  let r := finalizeMachines p.machines staff1 current_time
  { p with machines := r.1, staff := r.2 }

/-- Per-staff body of `rebalance` (src/main.rs lines 412-429). -/
def rebalanceStaffOne (machines : List MachineState) (current_time : Nat)
    (s : Staff) : Staff :=
  let s1 := if !s.is_available && decide (s.available_at ≤ current_time)
            then s.release_from_machine current_time else s
  if !s1.is_available then
    match s1.current_machine with
    | some machine_id =>
      let should_release :=
        match machines.get? machine_id with
        | some m => !m.is_operating || !(m.assigned_staff.contains s1.id)
        | none => true
      if should_release then s1.release_from_machine current_time else s1
    | none => s1
  else s1

/-- The machine loop of `rebalance` (src/main.rs lines 432-440): clear
machines marked idle but still holding staff. -/
def rebalanceMachines (ms : List MachineState) (staffList : List Staff)
    (current_time : Nat) : List MachineState × List Staff :=
  match ms with
  | [] => ([], staffList)
  | m :: rest =>
    if !m.is_operating && !m.assigned_staff.isEmpty then
      let staffList1 := releaseAllById m.assigned_staff staffList current_time
      let m1 := { m with assigned_staff := [] }
      let r := rebalanceMachines rest staffList1 current_time
      (m1 :: r.1, r.2)
    else
      let r := rebalanceMachines rest staffList current_time
      (m :: r.1, r.2)

/-- rebalance (src/main.rs lines 410-441); it reads and writes only the
`production` part of the `App`. -/
def rebalance (p : ProductionSimulator) (current_time : Nat) : ProductionSimulator :=
  let staff1 := p.staff.map (rebalanceStaffOne p.machines current_time)
  let r := rebalanceMachines p.machines staff1 current_time
  { p with machines := r.1, staff := r.2 }

/-- PendingJob from src/main.rs. -/
structure PendingJob where
  duration : Nat
  step_index : Nat
  item_id : Nat
  deriving DecidableEq, Repr

/-- One process step from the parsed configuration (`ProcessConfig`):
target bucket id and duration.  The optional explicit `process_id` of the
config is never read by the dispatcher and is omitted. -/
structure StepConfig where
  machine_id : Nat
  duration : Nat
  deriving DecidableEq, Repr

/-- HashMap::insert modelled on an association list: replace the first
binding of the key, or append a fresh binding. -/
def mapInsert {α : Type} (k : Nat) (v : α) : List (Nat × α) → List (Nat × α)
  | [] => [(k, v)]
  | (k', v') :: rest =>
    if k' = k then (k, v) :: rest else (k', v') :: mapInsert k v rest

/-- HashMap::remove modelled on an association list. -/
def mapRemove {α : Type} (k : Nat) : List (Nat × α) → List (Nat × α)
  | [] => []
  | (k', v') :: rest =>
    if k' = k then rest else (k', v') :: mapRemove k rest

/-- The dispatcher / driver state (the scheduling-relevant fields of
`App` in src/main.rs; UI fields are out of scope). -/
structure App where
  production : ProductionSimulator
  machine_buckets : List (Nat × List Nat)
  machine_to_bucket : List (Nat × Nat)
  job_queues : List (Nat × List PendingJob)
  steps : List StepConfig
  next_pid : Nat
  process_meta : List (Nat × (Nat × Nat))
  finished_goods : Nat
  deriving DecidableEq, Repr

/-- The comparison underlying `max_by_key(|job| (job.step_index,
Reverse(job.item_id)))`: `jobKeyGe a b` holds when `a`'s key is greater
than or equal to `b`'s, i.e. `a` has a higher step index, or the same
step index and a lower-or-equal item id. -/
def jobKeyGe (a b : PendingJob) : Bool :=
  decide (b.step_index < a.step_index) ||
    (decide (a.step_index = b.step_index) && decide (a.item_id ≤ b.item_id))

/-- The fold inside `max_by_key`: scan the remaining jobs keeping the
current best `(index, job)`; a later job replaces the current best when
its key is greater or equal (Rust's `max_by` keeps the last maximum). -/
def bestIdxGo : List PendingJob → Nat → Nat → PendingJob → Nat × PendingJob
  | [], _, bi, bj => (bi, bj)
  | j :: rest, i, bi, bj =>
    if jobKeyGe j bj then bestIdxGo rest (i + 1) i j
    else bestIdxGo rest (i + 1) bi bj

/-- The job selection of `try_start_jobs` (src/main.rs lines 663-668):
index and value of the queued job maximizing `(step_index,
Reverse(item_id))`, the last such job on full-key ties. -/
def bestIdx : List PendingJob → Option (Nat × PendingJob)
  | [] => none
  | j :: rest => some (bestIdxGo rest 1 0 j)

/-- The machine search of `try_start_jobs` (lines 671-674): the first
machine id in the bucket whose state exists and is not operating. -/
def findIdleMachine (machine_ids : List Nat) (machines : List MachineState) :
    Option Nat :=
  machine_ids.find? fun m_id =>
    (((machines.get? m_id).map fun m => !m.is_operating).getD false)

/-- Overwrite one machine's `waiting_for` (the
`app.production.machines.get_mut(machine_id)` updates in
`try_start_jobs`). -/
def setMachineWaiting (p : ProductionSimulator) (machine_id : Nat)
    (w : Option String) : ProductionSimulator :=
  match p.machines.get? machine_id with
  | none => p
  | some m =>
    { p with machines := p.machines.set machine_id { m with waiting_for := w } }

/-- The mutable state threaded through the `while` loop of
`try_start_jobs`. -/
structure DispatchState where
  production : ProductionSimulator
  queue : List PendingJob
  next_pid : Nat
  process_meta : List (Nat × (Nat × Nat))
  deriving DecidableEq, Repr

/-- The `while !queue.is_empty()` loop of `try_start_jobs` (src/main.rs
lines 661-699).  Each successful iteration removes one job from the
queue, so running the loop with fuel equal to the initial queue length
is exact. -/
def tryStartJobsGo : Nat → List Nat → Nat → DispatchState → DispatchState
  | 0, _, _, st => st
  | fuel + 1, machine_ids, current_time, st =>
    if st.queue.isEmpty then st
    else
      match bestIdx st.queue with
      | none => st
      | some (best_idx, job) =>
        match findIdleMachine machine_ids st.production.machines with
        | none => st
        | some machine_id =>
          let queue1 := st.queue.eraseIdx best_idx
          let pid := st.next_pid
          let meta' := mapInsert pid (job.step_index, job.item_id) st.process_meta
          let r := st.production.try_start_process machine_id pid job.duration
            current_time
          if r.1 then
            tryStartJobsGo fuel machine_ids current_time
              { production := setMachineWaiting r.2 machine_id none,
                queue := queue1, next_pid := pid + 1, process_meta := meta' }
          else
            { production := setMachineWaiting r.2 machine_id (some "Staff"),
              queue := queue1 ++ [job], next_pid := pid + 1, process_meta := meta' }

/-- try_start_jobs (src/main.rs lines 652-700). -/
def try_start_jobs (app : App) (bucket_id current_time : Nat) : App :=
  match app.job_queues.lookup bucket_id with
  | none => app
  | some queue =>
    if queue.isEmpty then app
    else
      match app.machine_buckets.lookup bucket_id with
      | none => app
      | some machine_ids =>
        let st := tryStartJobsGo queue.length machine_ids current_time
          { production := app.production, queue := queue,
            next_pid := app.next_pid, process_meta := app.process_meta }
        { app with production := st.production,
                   job_queues := mapInsert bucket_id st.queue app.job_queues,
                   next_pid := st.next_pid,
                   process_meta := st.process_meta }

/-- Push a PendingJob onto a bucket's queue
(`app.job_queues.entry(bucket).or_default().push(job)`). -/
def pushJob (queues : List (Nat × List PendingJob)) (bucket : Nat)
    (job : PendingJob) : List (Nat × List PendingJob) :=
  match queues.lookup bucket with
  | some q => mapInsert bucket (q ++ [job]) queues
  | none => mapInsert bucket [job] queues

/-- handle_event (src/main.rs lines 339-408).  The bucket iteration
order of `machine_buckets.keys()` (unspecified for a Rust `HashMap`) is
modelled as the association-list order. -/
def handle_event (app : App) (event : Event) : App :=
  match event.event_type with
  | EventType.ProcessComplete machine_id process_id =>
    let app1 :=
      match app.production.machines.get? machine_id with
      | none => app
      | some machine =>
        let current_time := event.time
        let staff' := releaseAllById machine.assigned_staff app.production.staff
          current_time
        let machine' :=
          { machine with
            is_operating := false,
            assigned_staff := [],
            waiting_for := some "Next process" }
        { app with production :=
            { app.production with
              staff := staff',
              machines := app.production.machines.set machine_id machine' } }
    match app1.process_meta.lookup process_id with
    | none => app1
    | some (step_idx, item_id) =>
      let app2 := { app1 with process_meta := mapRemove process_id app1.process_meta }
      let next_step := step_idx + 1
      match app2.steps.get? next_step with
      | some step =>
        let bucket := step.machine_id
        let job : PendingJob :=
          { duration := step.duration, step_index := next_step, item_id := item_id }
        let app3 := { app2 with job_queues := pushJob app2.job_queues bucket job }
        try_start_jobs app3 bucket event.time
      | none =>
        let app3 := { app2 with finished_goods := app2.finished_goods + 1 }
        (app3.machine_buckets.map Prod.fst).foldl
          (fun a bucket => try_start_jobs a bucket event.time) app3
  | EventType.StaffReleased staff_id machine_id =>
    let staff' := releaseFirstById app.production.staff staff_id
      app.production.simulator.elapsed_time
    let production1 := { app.production with staff := staff' }
    let production2 :=
      match production1.machines.get? machine_id with
      | none => production1
      | some machine =>
        let remaining := machine.assigned_staff.filter (fun id => id ≠ staff_id)
        let machine' :=
          if remaining.isEmpty then
            { machine with
              assigned_staff := remaining,
              is_operating := false,
              waiting_for := some "Next process" }
          else { machine with assigned_staff := remaining }
        { production1 with machines := production1.machines.set machine_id machine' }
    let app1 := { app with production := production2 }
    match app1.machine_to_bucket.lookup machine_id with
    | some bucket => try_start_jobs app1 bucket event.time
    | none => app1
  | _ => app

/-!  Spec-side and proof-side definitions.  Everything below this point
is not a translation of repository code: it names operation sequences,
invariants and measures used to state and prove the claims. -/

/-- One public operation on the `Simulator` clock (claim C7 quantifies
over sequences of `schedule_event` and `step` calls). -/
inductive SimOp where
  | schedule (time : Nat) (event_type : EventType)
  | step
  deriving DecidableEq, Repr

/-- Apply one operation to a simulator (the returned event of `step` is
discarded). -/
def SimOp.apply (op : SimOp) (s : Simulator) : Simulator :=
  match op with
  | .schedule t k => s.schedule_event t k
  | .step => (s.step).2

/-- Run a sequence of clock operations. -/
def runFrom (s : Simulator) (ops : List SimOp) : Simulator :=
  ops.foldl (fun st op => op.apply st) s

/-- A `schedule_event` call is forward-dated when its time is at least
the simulator's current time at the moment of the call. -/
def validB (s : Simulator) : SimOp → Bool
  | .schedule t _ => decide (s.current_time ≤ t)
  | .step => true

/-- Every `schedule_event` in the sequence is forward-dated at the state
in which it executes. -/
def ValidFrom (s : Simulator) : List SimOp → Bool
  | [] => true
  | op :: rest => validB s op && ValidFrom (op.apply s) rest

/-- Clock invariant: every queued event lies at or after the current
time. -/
def SimInv (s : Simulator) : Prop :=
  ∀ e ∈ s.event_queue, s.current_time ≤ e.time

/-- The effect of the `finalize_idle_time` machine loop on one machine
(proof-side restatement; `finalizeMachines` maps this over the list). -/
def machFix (t : Nat) (m : MachineState) : MachineState :=
  if m.is_operating then m
  else
    let m1 := { m with assigned_staff := ([] : List Nat) }
    if m1.last_status_change < t then
      { m1 with idle_time := m1.idle_time + (t - m1.last_status_change),
                last_status_change := t }
    else m1

/-- Idle time added to one staff member by a `finalize_idle_time` pass at
time `t`. -/
def idleGain (t : Nat) (s : Staff) : Nat :=
  if s.is_available = true ∧ s.last_status_change < t then t - s.last_status_change
  else 0

/-- `y` is `x` possibly hit by (any number of) guarded releases at `t` —
the only way the machine loops touch a staff member. -/
def RelStep (t : Nat) (x y : Staff) : Prop :=
  y = x ∨ y = x.release_from_machine t

/-- Post-state of a staff member after a `finalize_idle_time` pass at
`t`: available staff have caught up their status change to `t`, and
staff still busy are committed strictly beyond `t`. -/
def StaffInvP (t : Nat) (s : Staff) : Prop :=
  (s.is_available = true → t ≤ s.last_status_change) ∧
  (s.is_available = false → t < s.available_at)

/-- Post-state of a machine after a `finalize_idle_time` pass at `t`. -/
def MachInvP (t : Nat) (m : MachineState) : Prop :=
  m.is_operating = false → m.assigned_staff = [] ∧ t ≤ m.last_status_change

/-- The machine-state invariant of claim C4: a machine that is not
operating holds no staff, and an operating, non-automated machine that
requires staff holds exactly `staff_required` of them. -/
def MInv (m : MachineState) : Prop :=
  (m.is_operating = false → m.assigned_staff = []) ∧
  (m.is_operating = true → m.machine.is_automated = false →
    0 < m.machine.staff_required →
    m.assigned_staff.length = m.machine.staff_required)

/-- States reachable through the ProductionSimulator's operations when —
as the dispatcher guarantees by picking only idle machines —
`try_start_process` is only issued against machines that are not
currently operating. -/
inductive GuardedReach : ProductionSimulator → Prop where
  | init : GuardedReach ProductionSimulator.new
  | add_machine (p : ProductionSimulator) (m : MachineType) :
      GuardedReach p → GuardedReach (p.add_machine m)
  | add_staff (p : ProductionSimulator) (s : Staff) :
      GuardedReach p → GuardedReach (p.add_staff s)
  | start (p : ProductionSimulator) (machine_id process_id duration t : Nat) :
      GuardedReach p →
      (∀ m, p.machines.get? machine_id = some m → m.is_operating = false) →
      GuardedReach (p.try_start_process machine_id process_id duration t).2
  | finalize (p : ProductionSimulator) (t : Nat) :
      GuardedReach p → GuardedReach (p.finalize_idle_time t)
  | rebal (p : ProductionSimulator) (t : Nat) :
      GuardedReach p → GuardedReach (rebalance p t)

/-- The self-healing condition of `finalize_idle_time` (claim C5): the
staff member's recorded machine is unknown, not operating, or no longer
lists them as assigned. -/
def staffDesync (machines : List MachineState) (s : Staff) : Bool :=
  match s.current_machine with
  | none => false
  | some machine_id =>
    match machines.get? machine_id with
    | none => true
    | some m => !m.is_operating || !(m.assigned_staff.contains s.id)

/-!  Concrete states used by counterexamples and witnesses. -/

/-- A production line with one machine requiring two staff and a single
generalist staff member (the `test_staff_unavailable` setup). -/
def shortStaffed : ProductionSimulator :=
  ((ProductionSimulator.new.add_machine (MachineType.new 0 "Press" 2)).add_staff
    (Staff.new 0 "John" (Role.new 0 "Operator")))

/-- A staff member recorded as busy on machine 0 until time 10. -/
def busyStaff : Staff :=
  { id := 0, name := "S", role := Role.new 0 "Operator", is_available := false,
    current_machine := some 0, available_at := 10, idle_time := 0,
    last_status_change := 0 }

/-- A desynchronized state: `busyStaff` is marked busy on machine 0, but
machine 0 is not operating and lists nobody. -/
def desyncProd : ProductionSimulator :=
  { simulator := Simulator.new,
    machines := [MachineState.new (MachineType.new 0 "M" 1)],
    staff := [busyStaff] }

/-- Two queued jobs in one bucket: step 2 of item 5 and step 3 of
item 1. -/
def twoJobs : List PendingJob :=
  [{ duration := 7, step_index := 2, item_id := 5 },
   { duration := 7, step_index := 3, item_id := 1 }]

/-- Dispatcher state for the C3 scenario: `twoJobs` queued for bucket 0,
which holds one idle automated machine. -/
def tieBreakApp : App :=
  { production := ProductionSimulator.new.add_machine (MachineType.automated 0 "M"),
    machine_buckets := [(0, [0])], machine_to_bucket := [(0, 0)],
    job_queues := [(0, twoJobs)], steps := [],
    next_pid := 0, process_meta := [], finished_goods := 0 }

/-- Dispatcher state whose only dispatch attempt must fail: the bucket's
machine requires two staff but no staff exists. -/
def failApp : App :=
  { production := ProductionSimulator.new.add_machine (MachineType.new 0 "Press" 2),
    machine_buckets := [(0, [0])], machine_to_bucket := [(0, 0)],
    job_queues := [(0, [{ duration := 9, step_index := 0, item_id := 0 }])],
    steps := [], next_pid := 0, process_meta := [], finished_goods := 0 }

/-- `failApp` after its failed dispatch attempt has consumed process id
0: the orphan record for pid 0 is still tracked. -/
def orphanApp : App :=
  { failApp with next_pid := 1, process_meta := [(0, (0, 0))] }

/-- A guardedly-reached state: one machine requiring one staff member,
one generalist, one successful start. -/
def oneStarted : ProductionSimulator :=
  (((ProductionSimulator.new.add_machine (MachineType.new 0 "M" 1)).add_staff
      (Staff.new 0 "A" (Role.new 0 "Operator"))).try_start_process 0 0 5 0).2

/-- Double start: `try_start_process` issued twice against the same
machine (requiring 1 staff member) with two generalists on hand. -/
def doubleStarted : ProductionSimulator :=
  (((((ProductionSimulator.new.add_machine (MachineType.new 0 "M" 1)).add_staff
      (Staff.new 0 "A" (Role.new 0 "Operator"))).add_staff
      (Staff.new 1 "B" (Role.new 0 "Operator"))).try_start_process
        0 0 5 0).2.try_start_process 0 1 5 0).2

/-- A start on a non-automated machine whose `staff_required` is 0, with
one generalist on hand. -/
def zeroRequiredStarted : ProductionSimulator :=
  (((ProductionSimulator.new.add_machine (MachineType.new 0 "M" 0)).add_staff
      (Staff.new 0 "A" (Role.new 0 "Operator"))).try_start_process 0 0 5 0).2

/-- The machine state reached in `oneStarted`. -/
def oneStartedMachine : MachineState :=
  { machine := MachineType.new 0 "M" 1, is_operating := true,
    assigned_staff := [0], waiting_for := none, idle_time := 0,
    last_status_change := 0 }

/-!  Theorems. -/

/-- C8: `assign_to_machine` returns false and mutates nothing unless the
staff member is available and role-eligible; on success it accrues the
saturating idle gap, flips to unavailable, records the machine, commits
until `now + duration`, and resets the status-change time. -/
theorem assign_to_machine_spec (s : Staff) (machine_id duration now : Nat) :
    (¬(s.is_available = true ∧ s.can_work_on machine_id = true) →
      s.assign_to_machine machine_id duration now = (false, s)) ∧
    (s.is_available = true → s.can_work_on machine_id = true →
      s.assign_to_machine machine_id duration now =
        (true,
         { s with
           idle_time := s.idle_time + (now - s.last_status_change),
           is_available := false,
           current_machine := some machine_id,
           available_at := now + duration,
           last_status_change := now })) := by
  constructor
  · intro h
    rw [Staff.assign_to_machine, if_neg]
    simpa [not_and_or] using h
  · intro h1 h2
    rw [Staff.assign_to_machine, if_pos (by simp [h1, h2])]

/-- Witness for C8: a fresh generalist is assigned to machine 2 at time
3 for 10 minutes. -/
theorem assign_to_machine_spec_witness :
    (Staff.new 0 "John" (Role.new 0 "Operator")).assign_to_machine 2 10 3 =
      (true,
       { Staff.new 0 "John" (Role.new 0 "Operator") with
         idle_time := 3, is_available := false, current_machine := some 2,
         available_at := 13, last_status_change := 3 }) := by
  have h := (assign_to_machine_spec (Staff.new 0 "John" (Role.new 0 "Operator"))
    2 10 3).2 (by decide) (by decide)
  simpa using h

/-- C9: after a successful assignment, a release strictly before
`available_at = now + duration` is a no-op (the staff member stays
unavailable on the same machine), while a release at or after
`available_at` makes them available, clears the machine and stamps the
release time. -/
theorem release_guard_spec (s : Staff) (machine_id duration t t2 t3 : Nat)
    (havail : s.is_available = true) (hcan : s.can_work_on machine_id = true) :
    ((s.assign_to_machine machine_id duration t).2.is_available = false ∧
     (s.assign_to_machine machine_id duration t).2.current_machine = some machine_id) ∧
    (t2 < t + duration →
      ((s.assign_to_machine machine_id duration t).2.release_from_machine t2 =
        (s.assign_to_machine machine_id duration t).2)) ∧
    (t + duration ≤ t3 →
      (((s.assign_to_machine machine_id duration t).2.release_from_machine t3).is_available
          = true ∧
       ((s.assign_to_machine machine_id duration t).2.release_from_machine t3).current_machine
          = none ∧
       ((s.assign_to_machine machine_id duration t).2.release_from_machine t3).last_status_change
          = t3)) := by
  rw [Staff.assign_to_machine, if_pos (by simp [havail, hcan])]
  refine ⟨⟨rfl, rfl⟩, ?_, ?_⟩
  · intro h2
    rw [Staff.release_from_machine, if_neg (by simp; omega)]
  · intro h3
    rw [Staff.release_from_machine, if_pos (by simpa using h3)]
    exact ⟨rfl, rfl, rfl⟩

/-- Witness for C9: assign at time 0 for 10 minutes; releasing at time 4
is a no-op, releasing at time 10 frees the staff member. -/
theorem release_guard_spec_witness :
    ((Staff.new 0 "John" (Role.new 0 "Operator")).assign_to_machine 2 10 0).2.release_from_machine
        4 =
      ((Staff.new 0 "John" (Role.new 0 "Operator")).assign_to_machine 2 10 0).2 ∧
    (((Staff.new 0 "John" (Role.new 0 "Operator")).assign_to_machine 2 10 0).2.release_from_machine
        10).is_available = true := by
  have h := release_guard_spec (Staff.new 0 "John" (Role.new 0 "Operator"))
    2 10 0 4 10 (by decide) (by decide)
  exact ⟨h.2.1 (by decide), (h.2.2 (by decide)).1⟩

/-- `heapPop` returns `none` exactly on the empty queue. -/
theorem heapPop_eq_none {l : List Event} : heapPop l = none ↔ l = [] := by
  cases l with
  | nil => simp [heapPop]
  | cons e es =>
    rw [heapPop]
    cases h : heapPop es with
    | none => simp
    | some pr =>
      obtain ⟨m, rest⟩ := pr
      by_cases hc : Event.cmp e m = Ordering.lt <;> simp [hc]

/-- `heapPop` pops a member of minimal time and returns a sub-multiset of
the queue. -/
theorem heapPop_min {l : List Event} {e : Event} {rest : List Event}
    (h : heapPop l = some (e, rest)) :
    e ∈ l ∧ (∀ x ∈ l, e.time ≤ x.time) ∧ ∀ x ∈ rest, x ∈ l := by
  induction l generalizing e rest with
  | nil => simp [heapPop] at h
  | cons a as ih =>
    rw [heapPop] at h
    cases has : heapPop as with
    | none =>
      rw [has] at h
      simp only [Option.some.injEq, Prod.mk.injEq] at h
      obtain ⟨rfl, rfl⟩ := h
      have hnil : as = [] := heapPop_eq_none.1 has
      subst hnil
      simp
    | some pr =>
      obtain ⟨m, rest'⟩ := pr
      rw [has] at h
      have h : (if Event.cmp a m = Ordering.lt then some (m, a :: rest')
          else some (a, as)) = some (e, rest) := h
      obtain ⟨hmem, hmin, hsub⟩ := ih has
      by_cases hc : Event.cmp a m = Ordering.lt
      · rw [if_pos hc] at h
        simp only [Option.some.injEq, Prod.mk.injEq] at h
        obtain ⟨rfl, rfl⟩ := h
        have hlt : m.time < a.time := by
          have := hc
          rw [Event.cmp, Nat.compare_eq_lt] at this
          exact this
        refine ⟨List.mem_cons_of_mem _ hmem, ?_, ?_⟩
        · intro x hx
          rcases List.mem_cons.1 hx with rfl | hx'
          · exact Nat.le_of_lt hlt
          · exact hmin x hx'
        · intro x hx
          rcases List.mem_cons.1 hx with rfl | hx'
          · exact List.mem_cons_self _ _
          · exact List.mem_cons_of_mem _ (hsub x hx')
      · rw [if_neg hc] at h
        simp only [Option.some.injEq, Prod.mk.injEq] at h
        obtain ⟨rfl, rfl⟩ := h
        have hle : a.time ≤ m.time := by
          rw [Event.cmp, Nat.compare_eq_lt] at hc
          omega
        refine ⟨List.mem_cons_self _ _, ?_, fun x hx => List.mem_cons_of_mem _ hx⟩
        intro x hx
        rcases List.mem_cons.1 hx with rfl | hx'
        · exact Nat.le_refl _
        · exact Nat.le_trans hle (hmin x hx')

/-- C1: on a non-empty queue, `step` removes and returns an event whose
time is at most the time of every event still queued (and of every event
that was queued), and advances `current_time` to that event's time; on
an empty queue it returns `none` and leaves the simulator unchanged. -/
theorem step_min_time (s : Simulator) :
    (s.event_queue = [] → s.step = (none, s)) ∧
    (s.event_queue ≠ [] →
      ∃ e s2, s.step = (some e, s2) ∧
        e ∈ s.event_queue ∧
        s2.current_time = e.time ∧
        (∀ x ∈ s.event_queue, e.time ≤ x.time) ∧
        (∀ x ∈ s2.event_queue, x ∈ s.event_queue ∧ e.time ≤ x.time)) := by
  constructor
  · intro h
    rw [Simulator.step]
    have : heapPop s.event_queue = none := heapPop_eq_none.2 h
    rw [this]
  · intro h
    cases hp : heapPop s.event_queue with
    | none => exact absurd (heapPop_eq_none.1 hp) h
    | some pr =>
      obtain ⟨e, rest⟩ := pr
      obtain ⟨hmem, hmin, hsub⟩ := heapPop_min hp
      refine ⟨e, { current_time := e.time, event_queue := rest }, ?_, hmem, rfl, hmin, ?_⟩
      · rw [Simulator.step, hp]
      · exact fun x hx => ⟨hsub x hx, hmin x (hsub x hx)⟩

/-- Witness for C1: a queue holding events at times 10 and 5 pops the
time-5 event first and advances the clock to 5. -/
theorem step_min_time_witness :
    ∃ e s2,
      ((Simulator.new.schedule_event 10 (EventType.ProcessStart 0 1)).schedule_event 5
          (EventType.MaterialArrival 1)).step = (some e, s2) ∧
      e ∈ ((Simulator.new.schedule_event 10 (EventType.ProcessStart 0 1)).schedule_event 5
          (EventType.MaterialArrival 1)).event_queue ∧
      s2.current_time = e.time ∧
      (∀ x ∈ ((Simulator.new.schedule_event 10 (EventType.ProcessStart 0 1)).schedule_event 5
          (EventType.MaterialArrival 1)).event_queue, e.time ≤ x.time) ∧
      (∀ x ∈ s2.event_queue,
        x ∈ ((Simulator.new.schedule_event 10 (EventType.ProcessStart 0 1)).schedule_event 5
          (EventType.MaterialArrival 1)).event_queue ∧ e.time ≤ x.time) :=
  (step_min_time ((Simulator.new.schedule_event 10 (EventType.ProcessStart 0 1)).schedule_event 5
    (EventType.MaterialArrival 1))).2 (by decide)

/-- Counterexample to C7 as stated: schedule an event at time 5, step
(the clock reads 5), schedule an event at time 3 — `schedule_event` puts
no constraint on back-dated times — and step again: the clock moves
back to 3. -/
theorem clock_monotone_cex :
    (((Simulator.new.schedule_event 5 (EventType.MaterialArrival 0)).step).2.current_time
        = 5) ∧
    ((((((Simulator.new.schedule_event 5
        (EventType.MaterialArrival 0)).step).2.schedule_event 3
        (EventType.MaterialArrival 1)).step).2.current_time) = 3) ∧
    3 < 5 := by
  decide

/-- One forward-dated operation preserves the clock invariant and never
moves the clock backwards. -/
theorem simOp_apply_mono (s : Simulator) (op : SimOp) (hInv : SimInv s)
    (hv : validB s op = true) :
    SimInv (op.apply s) ∧ s.current_time ≤ (op.apply s).current_time := by
  cases op with
  | schedule t k =>
    simp only [validB, decide_eq_true_eq] at hv
    constructor
    · intro e he
      simp only [SimOp.apply, Simulator.schedule_event, List.mem_cons] at he
      rcases he with rfl | he'
      · exact hv
      · exact hInv e he'
    · exact Nat.le_refl _
  | step =>
    simp only [SimOp.apply, Simulator.step]
    cases hp : heapPop s.event_queue with
    | none => exact ⟨hInv, Nat.le_refl _⟩
    | some pr =>
      obtain ⟨e, rest⟩ := pr
      obtain ⟨hmem, hmin, hsub⟩ := heapPop_min hp
      refine ⟨?_, hInv e hmem⟩
      intro x hx
      exact hmin x (hsub x hx)

/-- A forward-dated run preserves the invariant and never decreases the
clock. -/
theorem runFrom_mono (ops : List SimOp) :
    ∀ s : Simulator, SimInv s → ValidFrom s ops = true →
      SimInv (runFrom s ops) ∧ s.current_time ≤ (runFrom s ops).current_time := by
  induction ops with
  | nil => intro s h _; exact ⟨h, Nat.le_refl _⟩
  | cons op rest ih =>
    intro s h hv
    rw [ValidFrom, Bool.and_eq_true] at hv
    obtain ⟨hv1, hv2⟩ := hv
    obtain ⟨h1, h2⟩ := simOp_apply_mono s op h hv1
    obtain ⟨h3, h4⟩ := ih (op.apply s) h1 hv2
    exact ⟨h3, Nat.le_trans h2 h4⟩

/-- Validity of a concatenated run splits at the junction. -/
theorem validFrom_append (ops1 ops2 : List SimOp) :
    ∀ s : Simulator, ValidFrom s (ops1 ++ ops2) = true →
      ValidFrom s ops1 = true ∧ ValidFrom (runFrom s ops1) ops2 = true := by
  induction ops1 with
  | nil => intro s h; exact ⟨rfl, h⟩
  | cons op rest ih =>
    intro s h
    rw [List.cons_append, ValidFrom, Bool.and_eq_true] at h
    obtain ⟨h1, h2⟩ := h
    obtain ⟨h3, h4⟩ := ih (op.apply s) h2
    refine ⟨?_, h4⟩
    rw [ValidFrom, Bool.and_eq_true]
    exact ⟨h1, h3⟩

/-- C7 amended: starting from `Simulator::new`, along any sequence of
`schedule_event` and `step` calls in which every `schedule_event` is
forward-dated (its time is at least the current time at the call —
`schedule_event` itself never enforces this), `current_time` never
decreases: the clock at any earlier point of the sequence is at most the
clock at any later point. -/
theorem clock_monotone_forward_scheduling (ops1 ops2 : List SimOp)
    (h : ValidFrom Simulator.new (ops1 ++ ops2) = true) :
    (runFrom Simulator.new ops1).current_time ≤
      (runFrom Simulator.new (ops1 ++ ops2)).current_time := by
  obtain ⟨h1, h2⟩ := validFrom_append ops1 ops2 Simulator.new h
  have hInv0 : SimInv Simulator.new := by intro e he; simp [Simulator.new] at he
  obtain ⟨hInv1, _⟩ := runFrom_mono ops1 Simulator.new hInv0 h1
  have hrun : runFrom Simulator.new (ops1 ++ ops2)
      = runFrom (runFrom Simulator.new ops1) ops2 := by
    rw [runFrom, runFrom, runFrom, List.foldl_append]
  rw [hrun]
  exact (runFrom_mono ops2 (runFrom Simulator.new ops1) hInv1 h2).2

/-- Witness for C7's amended statement: schedule at 5, step, schedule at
7, step — all forward-dated — and the clock reads 5 then 7. -/
theorem clock_monotone_forward_scheduling_witness :
    (runFrom Simulator.new
        [SimOp.schedule 5 (EventType.MaterialArrival 0), SimOp.step]).current_time ≤
      (runFrom Simulator.new
        ([SimOp.schedule 5 (EventType.MaterialArrival 0), SimOp.step] ++
         [SimOp.schedule 7 (EventType.MaterialArrival 1), SimOp.step])).current_time :=
  clock_monotone_forward_scheduling
    [SimOp.schedule 5 (EventType.MaterialArrival 0), SimOp.step]
    [SimOp.schedule 7 (EventType.MaterialArrival 1), SimOp.step] (by decide)

/-- The collecting loop gathers `min needed` and the number of
available, role-eligible staff (scanning in registration order and
stopping at `needed`). -/
theorem collectAvailable_length (l : List Staff) (mid needed : Nat) :
    ∀ (idx : Nat) (acc : List Nat), acc.length < needed →
      (collectAvailable l mid needed idx acc).length =
        min needed
          (acc.length + (l.filter fun s => s.is_available && s.can_work_on mid).length) := by
  induction l with
  | nil =>
    intro idx acc h
    rw [collectAvailable]
    simp only [List.filter_nil, List.length_nil, Nat.add_zero]
    omega
  | cons s rest ih =>
    intro idx acc h
    rw [collectAvailable]
    by_cases hp : (s.is_available && s.can_work_on mid) = true
    · have hfc : List.filter (fun x => x.is_available && x.can_work_on mid) (s :: rest)
          = s :: List.filter (fun x => x.is_available && x.can_work_on mid) rest := by
        simp [List.filter_cons, hp]
      rw [if_pos hp]
      have hlen : (acc ++ [idx]).length = acc.length + 1 := by
        simp
      by_cases hn : needed ≤ (acc ++ [idx]).length
      · rw [if_pos hn, hfc]
        simp only [List.length_cons]
        omega
      · rw [if_neg hn]
        rw [ih (idx + 1) (acc ++ [idx]) (by omega), hfc]
        simp only [List.length_cons, hlen]
        omega
    · have hfc : List.filter (fun x => x.is_available && x.can_work_on mid) (s :: rest)
          = List.filter (fun x => x.is_available && x.can_work_on mid) rest := by
        simp [List.filter_cons, hp]
      rw [if_neg hp]
      rw [ih (idx + 1) acc h, hfc]

/-- C2: on a known, non-automated machine with fewer available and
role-eligible staff than required, `try_start_process` returns false and
the only changes are a single `StaffUnavailable{machine_id, process_id}`
event scheduled at `now` and the machine's waiting reason set to
"Staff"; all staff and the machine's operating flag are untouched. -/
theorem try_start_staff_unavailable (p : ProductionSimulator)
    (machine_id process_id duration now : Nat) (machine : MachineState)
    (hm : p.machines.get? machine_id = some machine)
    (hauto : machine.machine.is_automated = false)
    (hshort : (p.staff.filter fun s => s.is_available && s.can_work_on machine_id).length
        < machine.machine.staff_required) :
    p.try_start_process machine_id process_id duration now =
      (false,
       { p with
         simulator :=
           { p.simulator with
             event_queue :=
               { time := now,
                 event_type := EventType.StaffUnavailable machine_id process_id }
                 :: p.simulator.event_queue },
         machines := p.machines.set machine_id
           { machine with waiting_for := some "Staff" } }) := by
  have hcollect : (collectAvailable p.staff machine_id machine.machine.staff_required
      0 []).length < machine.machine.staff_required := by
    rw [collectAvailable_length p.staff machine_id machine.machine.staff_required 0 []
      (by simpa using Nat.lt_of_le_of_lt (Nat.zero_le _) hshort)]
    simp only [List.length_nil, Nat.zero_add]
    omega
  rw [ProductionSimulator.try_start_process, hm]
  dsimp only
  rw [if_neg (by simp [hauto]), if_pos hcollect]
  rfl

/-- Witness for C2: a machine requiring two staff with one available
generalist fails, leaves the machine idle and waiting for "Staff", and
schedules the `StaffUnavailable` signal at the call time. -/
theorem try_start_staff_unavailable_witness :
    shortStaffed.try_start_process 0 3 10 4 =
      (false,
       { shortStaffed with
         simulator :=
           { shortStaffed.simulator with
             event_queue :=
               [{ time := 4, event_type := EventType.StaffUnavailable 0 3 }] },
         machines := shortStaffed.machines.set 0
           { MachineState.new (MachineType.new 0 "Press" 2) with
             waiting_for := some "Staff" } }) := by
  have h := try_start_staff_unavailable shortStaffed 0 3 10 4
    (MachineState.new (MachineType.new 0 "Press" 2)) (by rfl) (by rfl) (by decide)
  simpa using h

/-- The job key order is reflexive. -/
theorem jobKeyGe_refl (a : PendingJob) : jobKeyGe a a = true := by
  simp [jobKeyGe]

/-- The job key order is total. -/
theorem jobKeyGe_total (a b : PendingJob) :
    jobKeyGe a b = false → jobKeyGe b a = true := by
  simp only [jobKeyGe, Bool.or_eq_false_iff, Bool.or_eq_true, Bool.and_eq_true,
    Bool.and_eq_false_iff, decide_eq_true_eq, decide_eq_false_iff_not]
  omega

/-- The job key order is transitive. -/
theorem jobKeyGe_trans {a b c : PendingJob} (h1 : jobKeyGe a b = true)
    (h2 : jobKeyGe b c = true) : jobKeyGe a c = true := by
  simp only [jobKeyGe, Bool.or_eq_true, Bool.and_eq_true, decide_eq_true_eq] at *
  omega

/-- The `max_by_key` fold keeps either the incoming best or a member of
the scanned list (at the tracked offset), and the result dominates the
incoming best and every scanned job. -/
theorem bestIdxGo_spec (l : List PendingJob) :
    ∀ (i bi : Nat) (bj : PendingJob),
      ((bestIdxGo l i bi bj) = (bi, bj) ∨
        (i ≤ (bestIdxGo l i bi bj).1 ∧
          l.get? ((bestIdxGo l i bi bj).1 - i) = some (bestIdxGo l i bi bj).2)) ∧
      jobKeyGe (bestIdxGo l i bi bj).2 bj = true ∧
      ∀ x ∈ l, jobKeyGe (bestIdxGo l i bi bj).2 x = true := by
  induction l with
  | nil =>
    intro i bi bj
    exact ⟨Or.inl rfl, jobKeyGe_refl bj, by simp⟩
  | cons j rest ih =>
    intro i bi bj
    rw [bestIdxGo]
    by_cases hj : jobKeyGe j bj = true
    · rw [if_pos hj]
      obtain ⟨hpos, hge, hall⟩ := ih (i + 1) i j
      refine ⟨?_, jobKeyGe_trans hge hj, ?_⟩
      · rcases hpos with heq | ⟨hle, hget⟩
        · right
          rw [heq]
          exact ⟨Nat.le_refl i, by simp⟩
        · right
          refine ⟨Nat.le_trans (Nat.le_succ i) hle, ?_⟩
          have hd : (bestIdxGo rest (i + 1) i j).1 - i
              = ((bestIdxGo rest (i + 1) i j).1 - (i + 1)) + 1 := by omega
          rw [hd]
          simpa using hget
      · intro x hx
        rcases List.mem_cons.1 hx with rfl | hx'
        · exact hge
        · exact hall x hx'
    · rw [if_neg hj]
      have hj' : jobKeyGe bj j = true := jobKeyGe_total j bj (by simpa using hj)
      obtain ⟨hpos, hge, hall⟩ := ih (i + 1) bi bj
      refine ⟨?_, hge, ?_⟩
      · rcases hpos with heq | ⟨hle, hget⟩
        · exact Or.inl heq
        · right
          refine ⟨Nat.le_trans (Nat.le_succ i) hle, ?_⟩
          have hd : (bestIdxGo rest (i + 1) bi bj).1 - i
              = ((bestIdxGo rest (i + 1) bi bj).1 - (i + 1)) + 1 := by omega
          rw [hd]
          simpa using hget
      · intro x hx
        rcases List.mem_cons.1 hx with rfl | hx'
        · exact jobKeyGe_trans hge hj'
        · exact hall x hx'

/-- On a non-empty queue, `bestIdx` returns a valid index together with
the job stored there, and that job's key dominates every queued job. -/
theorem bestIdx_spec {q : List PendingJob} (h : q ≠ []) :
    ∃ i j, bestIdx q = some (i, j) ∧ q.get? i = some j ∧
      ∀ x ∈ q, jobKeyGe j x = true := by
  cases q with
  | nil => exact absurd rfl h
  | cons j0 rest =>
    obtain ⟨hpos, hge, hall⟩ := bestIdxGo_spec rest 1 0 j0
    refine ⟨(bestIdxGo rest 1 0 j0).1, (bestIdxGo rest 1 0 j0).2, by rw [bestIdx], ?_, ?_⟩
    · rcases hpos with heq | ⟨hle, hget⟩
      · rw [heq]
        rfl
      · have hd : (bestIdxGo rest 1 0 j0).1 = ((bestIdxGo rest 1 0 j0).1 - 1) + 1 := by
          omega
        rw [hd]
        simpa using hget
    · intro x hx
      rcases List.mem_cons.1 hx with rfl | hx'
      · exact hge
      · exact hall x hx'

/-- C3: `try_start_jobs` selects, among the queued jobs of a bucket, one
with the highest `step_index`, breaking ties by the lowest `item_id`;
in particular with jobs (step 2, item 5) and (step 3, item 1) queued
for a bucket holding one idle machine, the (step 3, item 1) job is
started first (its metadata is recorded for the consumed process id and
it leaves the queue while the other job stays). -/
theorem dispatch_selection :
    (∀ q : List PendingJob, q ≠ [] →
      ∃ i j, bestIdx q = some (i, j) ∧ q.get? i = some j ∧
        ∀ x ∈ q, x.step_index < j.step_index ∨
          (x.step_index = j.step_index ∧ j.item_id ≤ x.item_id)) ∧
    (try_start_jobs tieBreakApp 0 0).process_meta = [(0, (3, 1))] ∧
    (try_start_jobs tieBreakApp 0 0).job_queues
      = [(0, [{ duration := 7, step_index := 2, item_id := 5 }])] := by
  refine ⟨?_, by decide, by decide⟩
  intro q hq
  obtain ⟨i, j, h1, h2, h3⟩ := bestIdx_spec hq
  refine ⟨i, j, h1, h2, ?_⟩
  intro x hx
  have := h3 x hx
  simp only [jobKeyGe, Bool.or_eq_true, Bool.and_eq_true, decide_eq_true_eq] at this
  omega

/-- Witness for C3: the selection property applied to the concrete
two-job queue of the scenario. -/
theorem dispatch_selection_witness :
    ∃ i j, bestIdx twoJobs = some (i, j) ∧ twoJobs.get? i = some j ∧
      ∀ x ∈ twoJobs, x.step_index < j.step_index ∨
        (x.step_index = j.step_index ∧ j.item_id ≤ x.item_id) :=
  dispatch_selection.1 twoJobs (by decide)

/-- Lookup after inserting the same key. -/
theorem lookup_mapInsert_self {α : Type} (k : Nat) (v : α) (m : List (Nat × α)) :
    (mapInsert k v m).lookup k = some v := by
  induction m with
  | nil => simp [mapInsert, List.lookup]
  | cons kv rest ih =>
    obtain ⟨k', v'⟩ := kv
    rw [mapInsert]
    by_cases h : k' = k
    · rw [if_pos h]
      simp [List.lookup]
    · rw [if_neg h]
      have : (k == k') = false := by simp [Ne.symm h]
      simp [List.lookup, this, ih]

/-- Lookup of a different key is unchanged by an insert. -/
theorem lookup_mapInsert_ne {α : Type} (k k2 : Nat) (v : α) (m : List (Nat × α))
    (h : k2 ≠ k) : (mapInsert k v m).lookup k2 = m.lookup k2 := by
  have e0 : (k2 == k) = false := by simp [h]
  induction m with
  | nil => simp [mapInsert, List.lookup, e0]
  | cons kv rest ih =>
    obtain ⟨k', v'⟩ := kv
    rw [mapInsert]
    by_cases hk : k' = k
    · rw [if_pos hk]
      subst hk
      simp [List.lookup, e0]
    · rw [if_neg hk]
      by_cases h2 : k2 = k'
      · subst h2
        simp [List.lookup]
      · have e1 : (k2 == k') = false := by simp [h2]
        simp [List.lookup, e1, ih]

/-- Members after an insert are the inserted pair or old members. -/
theorem mem_mapInsert {α : Type} {kv : Nat × α} {k : Nat} {v : α}
    {m : List (Nat × α)} (h : kv ∈ mapInsert k v m) : kv = (k, v) ∨ kv ∈ m := by
  induction m with
  | nil => simpa [mapInsert] using h
  | cons kv' rest ih =>
    obtain ⟨k', v'⟩ := kv'
    rw [mapInsert] at h
    by_cases hk : k' = k
    · rw [if_pos hk] at h
      rcases List.mem_cons.1 h with rfl | h'
      · exact Or.inl rfl
      · exact Or.inr (List.mem_cons_of_mem _ h')
    · rw [if_neg hk] at h
      rcases List.mem_cons.1 h with rfl | h'
      · exact Or.inr (List.mem_cons_self _ _)
      · rcases ih h' with h2 | h2
        · exact Or.inl h2
        · exact Or.inr (List.mem_cons_of_mem _ h2)

/-- A key absent from an association list looks up to nothing. -/
theorem lookup_eq_none_of_not_mem_keys {α : Type} (m : List (Nat × α)) (k : Nat)
    (h : k ∉ m.map Prod.fst) : m.lookup k = none := by
  induction m with
  | nil => rfl
  | cons kv rest ih =>
    obtain ⟨k', v'⟩ := kv
    simp only [List.map_cons, List.mem_cons] at h
    push_neg at h
    have e1 : (k == k') = false := by simp [h.1]
    simp [List.lookup, e1, ih h.2]

/-- With duplicate-free keys, removal makes the key absent. -/
theorem lookup_mapRemove_self {α : Type} (k : Nat) (m : List (Nat × α))
    (hnd : (m.map Prod.fst).Nodup) : (mapRemove k m).lookup k = none := by
  induction m with
  | nil => rfl
  | cons kv rest ih =>
    obtain ⟨k', v'⟩ := kv
    simp only [List.map_cons, List.nodup_cons] at hnd
    rw [mapRemove]
    by_cases hk : k' = k
    · rw [if_pos hk]
      subst hk
      exact lookup_eq_none_of_not_mem_keys rest k' hnd.1
    · rw [if_neg hk]
      have e1 : (k == k') = false := by simp [Ne.symm hk]
      simp [List.lookup, e1, ih hnd.2]

/-- Facts about the `try_start_jobs` loop: the next process id never
decreases, records of already-consumed ids are untouched, well-formed
key bounds are preserved, and every freshly consumed id has a record. -/
theorem tryStartJobsGo_meta (fuel : Nat) :
    ∀ (machine_ids : List Nat) (t : Nat) (st : DispatchState),
      st.next_pid ≤ (tryStartJobsGo fuel machine_ids t st).next_pid ∧
      (∀ k, k < st.next_pid →
        (tryStartJobsGo fuel machine_ids t st).process_meta.lookup k
          = st.process_meta.lookup k) ∧
      ((∀ kv ∈ st.process_meta, kv.1 < st.next_pid) →
        ∀ kv ∈ (tryStartJobsGo fuel machine_ids t st).process_meta,
          kv.1 < (tryStartJobsGo fuel machine_ids t st).next_pid) ∧
      (∀ pid, st.next_pid ≤ pid →
        pid < (tryStartJobsGo fuel machine_ids t st).next_pid →
        ∃ v, (tryStartJobsGo fuel machine_ids t st).process_meta.lookup pid = some v) := by
  induction fuel with
  | zero =>
    intro machine_ids t st
    rw [tryStartJobsGo]
    exact ⟨Nat.le_refl _, fun k _ => rfl, fun h => h, fun pid h1 h2 => absurd h2 (by omega)⟩
  | succ fuel ih =>
    intro machine_ids t st
    rw [tryStartJobsGo]
    by_cases hqe : st.queue.isEmpty
    · rw [if_pos hqe]
      exact ⟨Nat.le_refl _, fun k _ => rfl, fun h => h, fun pid h1 h2 => absurd h2 (by omega)⟩
    · rw [if_neg hqe]
      cases hb : bestIdx st.queue with
      | none =>
        dsimp only
        exact ⟨Nat.le_refl _, fun k _ => rfl, fun h => h, fun pid h1 h2 => absurd h2 (by omega)⟩
      | some pr =>
        obtain ⟨best_idx, job⟩ := pr
        dsimp only
        cases hf : findIdleMachine machine_ids st.production.machines with
        | none =>
          dsimp only
          exact ⟨Nat.le_refl _, fun k _ => rfl, fun h => h,
            fun pid h1 h2 => absurd h2 (by omega)⟩
        | some machine_id =>
          dsimp only
          cases hr : (st.production.try_start_process machine_id st.next_pid
              job.duration t).1 with
          | true =>
            rw [if_pos rfl]
            set stR : DispatchState :=
              { production := setMachineWaiting
                  (st.production.try_start_process machine_id st.next_pid
                    job.duration t).2 machine_id none,
                queue := st.queue.eraseIdx best_idx,
                next_pid := st.next_pid + 1,
                process_meta := mapInsert st.next_pid (job.step_index, job.item_id)
                  st.process_meta } with hstR
            obtain ⟨iha, ihb, ihc, ihd⟩ := ih machine_ids t stR
            have hnp : stR.next_pid = st.next_pid + 1 := rfl
            have hpm : stR.process_meta
                = mapInsert st.next_pid (job.step_index, job.item_id) st.process_meta := rfl
            have iha' : st.next_pid + 1 ≤ (tryStartJobsGo fuel machine_ids t stR).next_pid := by
              rw [← hnp]
              exact iha
            refine ⟨Nat.le_trans (Nat.le_succ _) iha', ?_, ?_, ?_⟩
            · intro k hk
              rw [ihb k (by omega)]
              rw [hpm]
              exact lookup_mapInsert_ne _ _ _ _ (by omega)
            · intro hwf
              refine ihc ?_
              intro kv hkv
              rw [hpm] at hkv
              rcases mem_mapInsert hkv with rfl | h2
              · rw [hnp]
                omega
              · have := hwf kv h2
                rw [hnp]
                omega
            · intro pid h1 h2
              by_cases hp : pid = st.next_pid
              · subst hp
                refine ⟨(job.step_index, job.item_id), ?_⟩
                rw [ihb st.next_pid (by omega)]
                rw [hpm]
                exact lookup_mapInsert_self _ _ _
              · exact ihd pid (by omega) h2
          | false =>
            rw [if_neg (by simp)]
            refine ⟨Nat.le_succ _, ?_, ?_, ?_⟩
            · intro k hk
              exact lookup_mapInsert_ne _ _ _ _ (by omega)
            · intro hwf kv hkv
              rcases mem_mapInsert hkv with rfl | h2
              · simp
              · have := hwf kv h2
                simp only
                omega
            · intro pid h1 h2
              simp only at h2
              have hp : pid = st.next_pid := by omega
              subst hp
              exact ⟨(job.step_index, job.item_id), lookup_mapInsert_self _ _ _⟩

/-- The loop facts lifted to `try_start_jobs` on the `App`. -/
theorem try_start_jobs_meta (app : App) (bucket t : Nat) :
    app.next_pid ≤ (try_start_jobs app bucket t).next_pid ∧
    (∀ k, k < app.next_pid →
      (try_start_jobs app bucket t).process_meta.lookup k
        = app.process_meta.lookup k) ∧
    ((∀ kv ∈ app.process_meta, kv.1 < app.next_pid) →
      ∀ kv ∈ (try_start_jobs app bucket t).process_meta,
        kv.1 < (try_start_jobs app bucket t).next_pid) ∧
    (∀ pid, app.next_pid ≤ pid → pid < (try_start_jobs app bucket t).next_pid →
      ∃ v, (try_start_jobs app bucket t).process_meta.lookup pid = some v) := by
  rw [try_start_jobs]
  cases hq : app.job_queues.lookup bucket with
  | none =>
    dsimp only
    exact ⟨Nat.le_refl _, fun k _ => rfl, fun h => h, fun pid h1 h2 => absurd h2 (by omega)⟩
  | some queue =>
    dsimp only
    by_cases hqe : queue.isEmpty
    · rw [if_pos hqe]
      exact ⟨Nat.le_refl _, fun k _ => rfl, fun h => h, fun pid h1 h2 => absurd h2 (by omega)⟩
    · rw [if_neg hqe]
      cases hmb : app.machine_buckets.lookup bucket with
      | none =>
        dsimp only
        exact ⟨Nat.le_refl _, fun k _ => rfl, fun h => h,
          fun pid h1 h2 => absurd h2 (by omega)⟩
      | some machine_ids =>
        dsimp only
        exact tryStartJobsGo_meta queue.length machine_ids t
          { production := app.production, queue := queue,
            next_pid := app.next_pid, process_meta := app.process_meta }

/-- Dispatching across a list of buckets keeps consumed-id records and
never decreases the next process id. -/
theorem foldl_try_start_jobs_meta (buckets : List Nat) (t : Nat) :
    ∀ app : App,
      app.next_pid ≤ (buckets.foldl (fun a bucket => try_start_jobs a bucket t) app).next_pid ∧
      ∀ k, k < app.next_pid →
        (buckets.foldl (fun a bucket => try_start_jobs a bucket t) app).process_meta.lookup k
          = app.process_meta.lookup k := by
  induction buckets with
  | nil => intro app; exact ⟨Nat.le_refl _, fun k _ => rfl⟩
  | cons b rest ih =>
    intro app
    simp only [List.foldl_cons]
    obtain ⟨a1, b1, _, _⟩ := try_start_jobs_meta app b t
    obtain ⟨a2, b2⟩ := ih (try_start_jobs app b t)
    refine ⟨Nat.le_trans a1 a2, fun k hk => ?_⟩
    rw [b2 k (Nat.lt_of_lt_of_le hk a1), b1 k hk]

/-- Handling `ProcessComplete` for a tracked process id removes its
metadata record, and no re-dispatch performed by the handler restores
it. -/
theorem handle_process_complete_meta (app : App) (mid pid etime : Nat)
    (hnd : (app.process_meta.map Prod.fst).Nodup)
    (hpid : pid < app.next_pid) :
    (handle_event app
        { time := etime, event_type := EventType.ProcessComplete mid pid }).process_meta.lookup
      pid = none := by
  have hrm : (mapRemove pid app.process_meta).lookup pid = none :=
    lookup_mapRemove_self pid app.process_meta hnd
  rw [handle_event]
  dsimp only
  cases hm : app.production.machines.get? mid with
  | none =>
    dsimp only
    cases hl : app.process_meta.lookup pid with
    | none => exact hl
    | some v =>
      obtain ⟨step_idx, item_id⟩ := v
      dsimp only
      cases hs : app.steps.get? (step_idx + 1) with
      | some step =>
        dsimp only
        refine Eq.trans ((try_start_jobs_meta _ _ _).2.1 pid ?_) ?_
        · exact hpid
        · exact hrm
      | none =>
        dsimp only
        refine Eq.trans ((foldl_try_start_jobs_meta _ _ _).2 pid ?_) ?_
        · exact hpid
        · exact hrm
  | some machine =>
    dsimp only
    cases hl : app.process_meta.lookup pid with
    | none => exact hl
    | some v =>
      obtain ⟨step_idx, item_id⟩ := v
      dsimp only
      cases hs : app.steps.get? (step_idx + 1) with
      | some step =>
        dsimp only
        refine Eq.trans ((try_start_jobs_meta _ _ _).2.1 pid ?_) ?_
        · exact hpid
        · exact hrm
      | none =>
        dsimp only
        refine Eq.trans ((foldl_try_start_jobs_meta _ _ _).2 pid ?_) ?_
        · exact hpid
        · exact hrm


/-- C10: every dispatch attempt of `try_start_jobs` consumes a fresh
process id (`next_pid` only grows, already-consumed ids keep their
records, key bounds are preserved, and every id consumed by the call has
a `process_meta` record — in particular the record is written before
`try_start_process` runs, so a failed attempt leaves it behind as an
orphan while the job returns to the queue); only handling a matching
`ProcessComplete` event removes the record. -/
theorem dispatch_fresh_pid (app : App) (bucket t mid pid etime : Nat)
    (hwf : ∀ kv ∈ app.process_meta, kv.1 < app.next_pid)
    (hnd : (app.process_meta.map Prod.fst).Nodup)
    (hpid : pid < app.next_pid) :
    app.next_pid ≤ (try_start_jobs app bucket t).next_pid ∧
    (∀ k, k < app.next_pid →
      (try_start_jobs app bucket t).process_meta.lookup k
        = app.process_meta.lookup k) ∧
    (∀ kv ∈ (try_start_jobs app bucket t).process_meta,
      kv.1 < (try_start_jobs app bucket t).next_pid) ∧
    (∀ q, app.next_pid ≤ q → q < (try_start_jobs app bucket t).next_pid →
      ∃ v, (try_start_jobs app bucket t).process_meta.lookup q = some v) ∧
    ((handle_event app
        { time := etime, event_type := EventType.ProcessComplete mid pid }).process_meta.lookup
      pid = none) ∧
    ((try_start_jobs failApp 0 0).process_meta.lookup 0 = some (0, 0) ∧
     (try_start_jobs failApp 0 0).job_queues.lookup 0
        = some [{ duration := 9, step_index := 0, item_id := 0 }] ∧
     (try_start_jobs failApp 0 0).next_pid = 1) := by
  obtain ⟨a, b, c, d⟩ := try_start_jobs_meta app bucket t
  exact ⟨a, b, c hwf, d, handle_process_complete_meta app mid pid etime hnd hpid,
    by decide, by decide, by decide⟩

/-- Witness for C10: in the orphaned state left by `failApp`'s failed
dispatch, handling the matching `ProcessComplete` removes pid 0's
record. -/
theorem dispatch_fresh_pid_witness :
    (handle_event orphanApp
        { time := 12, event_type := EventType.ProcessComplete 0 0 }).process_meta.lookup 0
      = none :=
  (dispatch_fresh_pid orphanApp 0 0 0 0 12 (by decide) (by decide)
    (by decide)).2.2.2.2.1

/-- The staff pass of `finalize_idle_time` on an available staff member
only accumulates idle time. -/
theorem fso_avail {ms : List MachineState} {t : Nat} {s : Staff}
    (h1 : s.is_available = true) :
    finalizeStaffOne ms t s = s.accumulate_idle_until t := by
  rw [finalizeStaffOne]
  simp [h1]

/-- The staff pass of `finalize_idle_time` on a busy staff member whose
committed end time has passed releases them (and accumulates nothing,
because the release stamps `last_status_change` with `t`). -/
theorem fso_due {ms : List MachineState} {t : Nat} {s : Staff}
    (h1 : s.is_available = false) (h2 : s.available_at ≤ t) :
    finalizeStaffOne ms t s =
      { s with is_available := true, current_machine := none,
               last_status_change := t } := by
  rw [finalizeStaffOne]
  have e1 : (!s.is_available && decide (s.available_at ≤ t)) = true := by
    simp [h1, h2]
  rw [e1]
  have er : s.release_from_machine t =
      { s with is_available := true, current_machine := none,
               last_status_change := t } := by
    rw [Staff.release_from_machine, if_pos h2]
  simp only [if_true, er]
  rw [Staff.accumulate_idle_until]
  simp

/-- The staff pass of `finalize_idle_time` on a busy staff member whose
committed end time has not passed changes nothing: the self-healing
release is blocked by the `release_from_machine` guard. -/
theorem fso_early {ms : List MachineState} {t : Nat} {s : Staff}
    (h1 : s.is_available = false) (h2 : ¬s.available_at ≤ t) :
    finalizeStaffOne ms t s = s := by
  rw [finalizeStaffOne]
  have e1 : (!s.is_available && decide (s.available_at ≤ t)) = false := by
    simp [h2]
  rw [e1]
  have er : s.release_from_machine t = s := by
    rw [Staff.release_from_machine, if_neg h2]
  have ea : s.accumulate_idle_until t = s := by
    rw [Staff.accumulate_idle_until]
    simp [h1]
  simp only [Bool.false_eq_true, if_false]
  rw [if_neg (by simp [h1])]
  split
  · exact ea
  · split
    · split
      · rw [er]
        exact ea
      · exact ea
    · rw [er]
      exact ea

/-- Two releases at the same time collapse into one. -/
theorem release_idem (s : Staff) (t : Nat) :
    (s.release_from_machine t).release_from_machine t = s.release_from_machine t := by
  by_cases h : s.available_at ≤ t
  · have er : s.release_from_machine t =
        { s with is_available := true, current_machine := none,
                 last_status_change := t } := by
      rw [Staff.release_from_machine, if_pos h]
    rw [er, Staff.release_from_machine]
    simp [h]
  · have er : s.release_from_machine t = s := by
      rw [Staff.release_from_machine, if_neg h]
    rw [er, er]

/-- `RelStep` is reflexive-transitive in the collapsed sense. -/
theorem relStep_trans {t : Nat} {x y z : Staff} (h1 : RelStep t x y)
    (h2 : RelStep t y z) : RelStep t x z := by
  rcases h1 with rfl | rfl
  · exact h2
  · rcases h2 with rfl | rfl
    · exact Or.inr rfl
    · exact Or.inr (release_idem x t)

/-- `releaseFirstById` changes the element at each position by at most a
guarded release. -/
theorem releaseFirstById_get (l : List Staff) (sid t : Nat) :
    ∀ i, (releaseFirstById l sid t).get? i = l.get? i ∨
      ∃ x, l.get? i = some x ∧
        (releaseFirstById l sid t).get? i = some (x.release_from_machine t) := by
  induction l with
  | nil => intro i; left; rfl
  | cons s rest ih =>
    intro i
    rw [releaseFirstById]
    by_cases h : s.id = sid
    · rw [if_pos h]
      cases i with
      | zero => exact Or.inr ⟨s, rfl, rfl⟩
      | succ j => left; rfl
    · rw [if_neg h]
      cases i with
      | zero => left; rfl
      | succ j => exact ih j

/-- `releaseAllById` relates positions by `RelStep`. -/
theorem releaseAllById_get (ids : List Nat) :
    ∀ (l : List Staff) (t i : Nat) (x : Staff), l.get? i = some x →
      ∃ y, (releaseAllById ids l t).get? i = some y ∧ RelStep t x y := by
  induction ids with
  | nil => intro l t i x hx; exact ⟨x, hx, Or.inl rfl⟩
  | cons sid rest ih =>
    intro l t i x hx
    rw [releaseAllById]
    rcases releaseFirstById_get l sid t i with h | ⟨x2, hx2, h2⟩
    · have hx2 : (releaseFirstById l sid t).get? i = some x := by rw [h, hx]
      exact ih (releaseFirstById l sid t) t i x hx2
    · rw [hx] at hx2
      obtain rfl : x = x2 := by injection hx2
      obtain ⟨y, hy1, hy2⟩ := ih (releaseFirstById l sid t) t i
        (x.release_from_machine t) h2
      exact ⟨y, hy1, relStep_trans (Or.inr rfl) hy2⟩

/-- The machine loop of `finalize_idle_time` relates staff positions by
`RelStep`. -/
theorem finalizeMachines_staff_get (ms : List MachineState) :
    ∀ (l : List Staff) (t i : Nat) (x : Staff), l.get? i = some x →
      ∃ y, (finalizeMachines ms l t).2.get? i = some y ∧ RelStep t x y := by
  induction ms with
  | nil => intro l t i x hx; exact ⟨x, hx, Or.inl rfl⟩
  | cons m rest ih =>
    intro l t i x hx
    rw [finalizeMachines]
    by_cases hop : m.is_operating = true
    · rw [if_pos hop]
      exact ih l t i x hx
    · rw [if_neg hop]
      obtain ⟨y, hy1, hy2⟩ := releaseAllById_get m.assigned_staff l t i x hx
      obtain ⟨z, hz1, hz2⟩ := ih (releaseAllById m.assigned_staff l t) t i y hy1
      exact ⟨z, hz1, relStep_trans hy2 hz2⟩

/-- Counterexample to C5 as stated: a staff member marked busy on a
machine that is not operating (a desynchronized state) is NOT
force-released by `finalize_idle_time(5)` because their `available_at`
(10) has not been reached — `release_from_machine`'s guard blocks the
self-healing release. -/
theorem finalize_force_release_cex :
    busyStaff.is_available = false ∧
    staffDesync desyncProd.machines busyStaff = true ∧
    5 < busyStaff.available_at ∧
    ((desyncProd.finalize_idle_time 5).staff.get? 0).map
      (fun s => (s.is_available, s.current_machine)) = some (false, some 0) := by
  decide

/-- C5 amended: after `finalize_idle_time(now)`, every staff member who
entered the call busy with a desynchronized recorded machine (unknown,
not operating, or no longer listing them) has been released — available
with no current machine — provided `now` has reached that staff member's
`available_at`; otherwise the release guard leaves them busy. -/
theorem finalize_release_after_available_at (p : ProductionSimulator)
    (now i : Nat) (s : Staff)
    (hs : p.staff.get? i = some s)
    (hbusy : s.is_available = false)
    (hdesync : staffDesync p.machines s = true)
    (hdue : s.available_at ≤ now) :
    ∃ s2, (p.finalize_idle_time now).staff.get? i = some s2 ∧
      s2.is_available = true ∧ s2.current_machine = none := by
  rw [ProductionSimulator.finalize_idle_time]
  dsimp only
  have h1 : (p.staff.map (finalizeStaffOne p.machines now)).get? i
      = some (finalizeStaffOne p.machines now s) := by
    rw [List.get?_map, hs]
    rfl
  obtain ⟨y, hy1, hy2⟩ := finalizeMachines_staff_get p.machines
    (p.staff.map (finalizeStaffOne p.machines now)) now i
    (finalizeStaffOne p.machines now s) h1
  refine ⟨y, hy1, ?_⟩
  have hchar := @fso_due p.machines now s hbusy hdue
  rw [hchar] at hy2
  rcases hy2 with rfl | rfl
  · exact ⟨rfl, rfl⟩
  · constructor <;> simp [Staff.release_from_machine, hdue]

/-- Witness for C5's amended statement: `busyStaff` (committed until 10)
in the desynchronized state, finalized at time 12, is released. -/
theorem finalize_release_after_available_at_witness :
    ∃ s2, (desyncProd.finalize_idle_time 12).staff.get? 0 = some s2 ∧
      s2.is_available = true ∧ s2.current_machine = none :=
  finalize_release_after_available_at desyncProd 12 0 busyStaff (by rfl) (by rfl)
    (by decide) (by decide)

/-- The machine loop of `finalize_idle_time` maps `machFix` over the
machine list. -/
theorem finalizeMachines_fst (ms : List MachineState) :
    ∀ (l : List Staff) (t : Nat), (finalizeMachines ms l t).1 = ms.map (machFix t) := by
  induction ms with
  | nil => intro l t; rfl
  | cons m rest ih =>
    intro l t
    rw [finalizeMachines, List.map_cons]
    by_cases hop : m.is_operating = true
    · rw [if_pos hop]
      dsimp only
      rw [ih l t, machFix, if_pos hop]
    · rw [if_neg hop]
      dsimp only
      rw [ih _ t, machFix, if_neg hop]

/-- Machines in the output of the `rebalance` machine loop that are not
operating hold no staff. -/
theorem rebalanceMachines_clean (ms : List MachineState) :
    ∀ (l : List Staff) (t : Nat) (x : MachineState),
      x ∈ (rebalanceMachines ms l t).1 → x.is_operating = false →
        x.assigned_staff = [] := by
  induction ms with
  | nil => intro l t x hx; simp [rebalanceMachines] at hx
  | cons m rest ih =>
    intro l t x hx hop
    rw [rebalanceMachines] at hx
    by_cases hc : (!m.is_operating && !m.assigned_staff.isEmpty) = true
    · rw [if_pos hc] at hx
      dsimp only at hx
      rcases List.mem_cons.1 hx with rfl | hx'
      · rfl
      · exact ih _ t x hx' hop
    · rw [if_neg hc] at hx
      dsimp only at hx
      rcases List.mem_cons.1 hx with rfl | hx'
      · cases hx2 : x.assigned_staff with
        | nil => rfl
        | cons a as => exact absurd (by simp [hop, hx2]) hc
      · exact ih _ t x hx' hop

/-- Machines in the output of the `rebalance` machine loop are old
machines, possibly with their staff list cleared. -/
theorem rebalanceMachines_mem (ms : List MachineState) :
    ∀ (l : List Staff) (t : Nat) (x : MachineState),
      x ∈ (rebalanceMachines ms l t).1 →
        ∃ m ∈ ms, x = m ∨
          (x = { m with assigned_staff := ([] : List Nat) } ∧
            m.is_operating = false) := by
  induction ms with
  | nil => intro l t x hx; simp [rebalanceMachines] at hx
  | cons m rest ih =>
    intro l t x hx
    rw [rebalanceMachines] at hx
    by_cases hc : (!m.is_operating && !m.assigned_staff.isEmpty) = true
    · rw [if_pos hc] at hx
      dsimp only at hx
      rcases List.mem_cons.1 hx with rfl | hx'
      · refine ⟨m, List.mem_cons_self _ _, Or.inr ⟨rfl, ?_⟩⟩
        simp only [Bool.and_eq_true, Bool.not_eq_true'] at hc
        exact hc.1
      · obtain ⟨m2, hm2, ho⟩ := ih _ t x hx'
        exact ⟨m2, List.mem_cons_of_mem _ hm2, ho⟩
    · rw [if_neg hc] at hx
      dsimp only at hx
      rcases List.mem_cons.1 hx with rfl | hx'
      · exact ⟨x, List.mem_cons_self _ _, Or.inl rfl⟩
      · obtain ⟨m2, hm2, ho⟩ := ih _ t x hx'
        exact ⟨m2, List.mem_cons_of_mem _ hm2, ho⟩

/-- Indices collected by the staff scan are bounded by the scanned
range. -/
theorem collectAvailable_mem_lt (l : List Staff) (mid needed : Nat) :
    ∀ (idx : Nat) (acc : List Nat), (∀ j ∈ acc, j < idx) →
      ∀ j ∈ collectAvailable l mid needed idx acc, j < idx + l.length := by
  induction l with
  | nil =>
    intro idx acc hacc j hj
    rw [collectAvailable] at hj
    exact Nat.lt_of_lt_of_le (hacc j hj) (by simp)
  | cons s rest ih =>
    intro idx acc hacc j hj
    rw [collectAvailable] at hj
    by_cases hp : (s.is_available && s.can_work_on mid) = true
    · rw [if_pos hp] at hj
      dsimp only at hj
      have hacc2 : ∀ j ∈ acc ++ [idx], j < idx + 1 := by
        intro j hj2
        rcases List.mem_append.1 hj2 with h | h
        · exact Nat.lt_succ_of_lt (hacc j h)
        · simp at h
          omega
      by_cases hn : needed ≤ (acc ++ [idx]).length
      · rw [if_pos hn] at hj
        have := hacc2 j hj
        simp only [List.length_cons]
        omega
      · rw [if_neg hn] at hj
        have := ih (idx + 1) (acc ++ [idx]) hacc2 j hj
        simp only [List.length_cons]
        omega
    · rw [if_neg hp] at hj
      have := ih (idx + 1) acc (fun j h => Nat.lt_succ_of_lt (hacc j h)) j hj
      simp only [List.length_cons]
      omega

/-- The assignment loop appends exactly one staff id per in-range
index. -/
theorem assignLoop_assigned_length (indices : List Nat) :
    ∀ (staffList : List Staff) (assigned : List Nat) (sim : Simulator)
      (mid dur t : Nat),
      (∀ j ∈ indices, j < staffList.length) →
      (assignLoop indices staffList assigned sim mid dur t).2.1.length
        = assigned.length + indices.length := by
  induction indices with
  | nil => intro staffList assigned sim mid dur t _; rfl
  | cons idx rest ih =>
    intro staffList assigned sim mid dur t hidx
    rw [assignLoop]
    cases hg : staffList.get? idx with
    | none =>
      exfalso
      have h1 : idx < staffList.length := hidx idx (List.mem_cons_self _ _)
      have h2 : staffList.length ≤ idx := List.get?_eq_none.1 hg
      omega
    | some s =>
      dsimp only
      rw [ih]
      · simp only [List.length_append, List.length_cons, List.length_nil]
        omega
      · intro j hj
        rw [List.length_set]
        exact hidx j (List.mem_cons_of_mem _ hj)

/-- Along guardedly-reached states every machine satisfies `MInv`. -/
theorem guardedReach_MInv {p : ProductionSimulator} (hp : GuardedReach p) :
    ∀ m ∈ p.machines, MInv m := by
  induction hp with
  | init => intro m hm; simp [ProductionSimulator.new] at hm
  | add_machine q mt hq ih =>
    intro m hm
    rw [ProductionSimulator.add_machine] at hm
    dsimp only at hm
    rcases List.mem_append.1 hm with h | h
    · exact ih m h
    · simp only [List.mem_singleton] at h
      subst h
      exact ⟨fun _ => rfl, fun hop => by simp [MachineState.new] at hop⟩
  | add_staff q s hq ih =>
    intro m hm
    exact ih m hm
  | start q mid pid dur t hq hguard ih =>
    intro m hm
    rw [ProductionSimulator.try_start_process] at hm
    cases hg : q.machines.get? mid with
    | none =>
      rw [hg] at hm
      exact ih m hm
    | some machine =>
      rw [hg] at hm
      dsimp only at hm
      have hop : machine.is_operating = false := hguard machine hg
      have hmem : machine ∈ q.machines := List.get?_mem hg
      have hMinv := ih machine hmem
      by_cases hauto : machine.machine.is_automated = true
      · rw [if_pos hauto] at hm
        dsimp only at hm
        rcases List.mem_or_eq_of_mem_set hm with h | rfl
        · exact ih m h
        · exact ⟨fun hfalse => by simp at hfalse,
            fun _ hAutoF _ => by simp [hauto] at hAutoF⟩
      · rw [if_neg hauto] at hm
        by_cases hshort : (collectAvailable q.staff mid machine.machine.staff_required
            0 []).length < machine.machine.staff_required
        · rw [if_pos hshort] at hm
          dsimp only at hm
          rcases List.mem_or_eq_of_mem_set hm with h | rfl
          · exact ih m h
          · exact ⟨fun h => hMinv.1 h, fun h ha hr => hMinv.2 h ha hr⟩
        · rw [if_neg hshort] at hm
          dsimp only at hm
          rcases List.mem_or_eq_of_mem_set hm with h | rfl
          · exact ih m h
          · refine ⟨fun hfalse => by simp at hfalse, fun _ _ hreq => ?_⟩
            have hempty : machine.assigned_staff = [] := hMinv.1 hop
            have hrange : ∀ j ∈ collectAvailable q.staff mid
                machine.machine.staff_required 0 [], j < q.staff.length := by
              intro j hj
              have := collectAvailable_mem_lt q.staff mid
                machine.machine.staff_required 0 [] (by simp) j hj
              omega
            have hlen := assignLoop_assigned_length
              (collectAvailable q.staff mid machine.machine.staff_required 0 [])
              q.staff machine.assigned_staff q.simulator mid dur t hrange
            have hc0 : (collectAvailable q.staff mid
                machine.machine.staff_required 0 []).length
                = min machine.machine.staff_required
                  ((q.staff.filter fun s => s.is_available && s.can_work_on mid).length) := by
              have := collectAvailable_length q.staff mid
                machine.machine.staff_required 0 [] (by simpa using hreq)
              simpa using this
            have hclen : (collectAvailable q.staff mid
                machine.machine.staff_required 0 []).length
                = machine.machine.staff_required := by
              rw [hc0]
              rw [hc0] at hshort
              omega
            show (assignLoop (collectAvailable q.staff mid
                machine.machine.staff_required 0 []) q.staff machine.assigned_staff
                q.simulator mid dur t).2.1.length = machine.machine.staff_required
            rw [hlen, hempty, hclen]
            simp
  | finalize q t hq ih =>
    intro m hm
    rw [ProductionSimulator.finalize_idle_time] at hm
    dsimp only at hm
    rw [finalizeMachines_fst] at hm
    obtain ⟨m0, hm0, rfl⟩ := List.mem_map.1 hm
    have h0 := ih m0 hm0
    rw [machFix]
    by_cases hop : m0.is_operating = true
    · rw [if_pos hop]
      exact h0
    · rw [if_neg hop]
      dsimp only
      by_cases hlt : m0.last_status_change < t
      · rw [if_pos hlt]
        exact ⟨fun _ => rfl, fun hfalse => absurd hfalse hop⟩
      · rw [if_neg hlt]
        exact ⟨fun _ => rfl, fun hfalse => absurd hfalse hop⟩
  | rebal q t hq ih =>
    intro m hm
    rw [rebalance] at hm
    dsimp only at hm
    obtain ⟨m0, hm0, ho⟩ := rebalanceMachines_mem q.machines _ t m hm
    have h0 := ih m0 hm0
    have hclean := rebalanceMachines_clean q.machines _ t m hm
    rcases ho with rfl | ⟨rfl, hopf⟩
    · exact ⟨fun h => hclean h, fun h ha hr => h0.2 h ha hr⟩
    · exact ⟨fun _ => rfl, fun h => absurd h (by simp [hopf])⟩

/-- Counterexample to C4 as stated: two states reachable through the
ProductionSimulator's operations violate "operating non-automated
machines hold exactly staff_required staff".  First, calling
`try_start_process` twice in a row on the same machine (requiring one
staff member, with two on hand) piles a second staff id onto
`assigned_staff` (length 2 ≠ 1).  Second, a successful start on a
non-automated machine with `staff_required = 0` still assigns the first
eligible staff member (length 1 ≠ 0), because the collection loop pushes
before it compares against the requirement. -/
theorem machine_invariant_cex :
    ((doubleStarted.machines.get? 0).map
      (fun m => (m.is_operating, m.machine.is_automated, m.machine.staff_required,
        m.assigned_staff.length)) = some (true, false, 1, 2)) ∧
    ((zeroRequiredStarted.machines.get? 0).map
      (fun m => (m.is_operating, m.machine.is_automated, m.machine.staff_required,
        m.assigned_staff.length)) = some (true, false, 0, 1)) := by
  decide

/-- C4 amended: after any `finalize_idle_time` or `rebalance` pass, a
machine that is not operating holds no assigned staff; and in every
state reached while issuing `try_start_process` only against machines
that are not already operating (as the dispatcher does), every operating
non-automated machine with `staff_required ≥ 1` holds exactly
`staff_required` assigned staff (and every non-operating machine holds
none). -/
theorem machine_invariant_guarded :
    (∀ (p : ProductionSimulator) (t : Nat) (m : MachineState),
      m ∈ (p.finalize_idle_time t).machines → m.is_operating = false →
        m.assigned_staff = []) ∧
    (∀ (p : ProductionSimulator) (t : Nat) (m : MachineState),
      m ∈ (rebalance p t).machines → m.is_operating = false →
        m.assigned_staff = []) ∧
    (∀ p : ProductionSimulator, GuardedReach p → ∀ m ∈ p.machines, MInv m) := by
  refine ⟨?_, ?_, fun p hp => guardedReach_MInv hp⟩
  · intro p t m hm hop
    rw [ProductionSimulator.finalize_idle_time] at hm
    dsimp only at hm
    rw [finalizeMachines_fst] at hm
    obtain ⟨m0, _, rfl⟩ := List.mem_map.1 hm
    rw [machFix] at hop ⊢
    by_cases h0 : m0.is_operating = true
    · rw [if_pos h0] at hop ⊢
      exact absurd hop (by simp [h0])
    · rw [if_neg h0] at hop ⊢
      dsimp only at hop ⊢
      by_cases hlt : m0.last_status_change < t
      · rw [if_pos hlt]
      · rw [if_neg hlt]
  · intro p t m hm hop
    rw [rebalance] at hm
    dsimp only at hm
    exact rebalanceMachines_clean p.machines _ t m hm hop

/-- Witness for C4's amended statement: the guardedly-reached state
`oneStarted` (one start on an idle machine requiring one staff member)
has exactly one assigned staff id on its machine. -/
theorem machine_invariant_guarded_witness :
    (oneStarted.machines.get? 0).map (fun m => m.assigned_staff.length) = some 1 := by
  have hguard : ∀ m, (((ProductionSimulator.new.add_machine
      (MachineType.new 0 "M" 1)).add_staff
      (Staff.new 0 "A" (Role.new 0 "Operator"))).machines.get? 0 = some m) →
      m.is_operating = false := by
    intro m hm
    have h0 : some (MachineState.new (MachineType.new 0 "M" 1)) = some m := hm
    obtain rfl := Option.some.inj h0
    rfl
  have hreach : GuardedReach oneStarted :=
    GuardedReach.start _ 0 0 5 0
      (GuardedReach.add_staff _ _ (GuardedReach.add_machine _ _ GuardedReach.init))
      hguard
  have h := machine_invariant_guarded.2.2 oneStarted hreach
  have hmb : oneStarted.machines.get? 0 = some oneStartedMachine := by decide
  have hinv := h oneStartedMachine (List.get?_mem hmb)
  have hlen := hinv.2 (by decide) (by decide) (by decide)
  rw [hmb]
  exact congrArg some (hlen.trans (by decide))

/-- A release never touches accumulated idle time. -/
theorem release_idle (s : Staff) (t : Nat) :
    (s.release_from_machine t).idle_time = s.idle_time := by
  rw [Staff.release_from_machine]
  split <;> rfl

/-- `RelStep` never touches accumulated idle time. -/
theorem relStep_idle {t : Nat} {x y : Staff} (h : RelStep t x y) :
    y.idle_time = x.idle_time := by
  rcases h with rfl | rfl
  · rfl
  · exact release_idle x t

/-- One staff pass of `finalize_idle_time` adds exactly `idleGain`. -/
theorem fso_idle (ms : List MachineState) (t : Nat) (s : Staff) :
    (finalizeStaffOne ms t s).idle_time = s.idle_time + idleGain t s := by
  by_cases h1 : s.is_available = true
  · rw [@fso_avail ms t s h1, Staff.accumulate_idle_until, idleGain]
    by_cases h2 : s.last_status_change < t
    · rw [if_pos (by simp [h1, h2]), if_pos ⟨h1, h2⟩]
    · rw [if_neg (by simp [h2]), if_neg (by rintro ⟨_, c⟩; exact h2 c)]
      simp
  · have h1f : s.is_available = false := by simpa using h1
    have hg : idleGain t s = 0 := by
      rw [idleGain, if_neg (by rintro ⟨c, _⟩; rw [h1f] at c; exact absurd c (by simp))]
    rw [hg]
    by_cases h2 : s.available_at ≤ t
    · rw [@fso_due ms t s h1f h2]
      simp
    · rw [@fso_early ms t s h1f h2]
      simp

/-- Positional account of one full `finalize_idle_time` pass on the
staff list: position `i` holds the staff pass result, possibly hit by
the machine loop's guarded releases. -/
theorem finalize_staff_get (p : ProductionSimulator) (t i : Nat) (s : Staff)
    (hs : p.staff.get? i = some s) :
    ∃ r, (p.finalize_idle_time t).staff.get? i = some r ∧
      RelStep t (finalizeStaffOne p.machines t s) r := by
  rw [ProductionSimulator.finalize_idle_time]
  dsimp only
  have h1 : (p.staff.map (finalizeStaffOne p.machines t)).get? i
      = some (finalizeStaffOne p.machines t s) := by
    rw [List.get?_map, hs]
    rfl
  exact finalizeMachines_staff_get p.machines _ t i _ h1

/-- `releaseFirstById` preserves the staff-list length. -/
theorem releaseFirstById_length (l : List Staff) (sid t : Nat) :
    (releaseFirstById l sid t).length = l.length := by
  induction l with
  | nil => rfl
  | cons s rest ih =>
    rw [releaseFirstById]
    split <;> simp [ih]

/-- `releaseAllById` preserves the staff-list length. -/
theorem releaseAllById_length (ids : List Nat) :
    ∀ (l : List Staff) (t : Nat), (releaseAllById ids l t).length = l.length := by
  induction ids with
  | nil => intro l t; rfl
  | cons sid rest ih =>
    intro l t
    rw [releaseAllById, ih, releaseFirstById_length]

/-- The machine loop preserves the staff-list length. -/
theorem finalizeMachines_staff_length (ms : List MachineState) :
    ∀ (l : List Staff) (t : Nat), (finalizeMachines ms l t).2.length = l.length := by
  induction ms with
  | nil => intro l t; rfl
  | cons m rest ih =>
    intro l t
    rw [finalizeMachines]
    by_cases hop : m.is_operating = true
    · rw [if_pos hop]
      exact ih l t
    · rw [if_neg hop]
      dsimp only
      rw [ih _ t, releaseAllById_length]

/-- `finalize_idle_time` preserves the staff-list length. -/
theorem finalize_staff_length (p : ProductionSimulator) (t : Nat) :
    (p.finalize_idle_time t).staff.length = p.staff.length := by
  rw [ProductionSimulator.finalize_idle_time]
  dsimp only
  rw [finalizeMachines_staff_length, List.length_map]

/-- The heart of idle-time monotonicity: the idle time a staff member
gains in one pass at `t2` never exceeds what they gain in a pass at
`t1 ≤ t2` followed by a pass at `t2`. -/
theorem gain_pair {ms : List MachineState} {t1 t2 : Nat} (h12 : t1 ≤ t2)
    (s r1 : Staff) (hr : RelStep t1 (finalizeStaffOne ms t1 s) r1) :
    idleGain t2 s ≤ idleGain t1 s + idleGain t2 r1 := by
  by_cases h1 : s.is_available = true
  · rw [@fso_avail ms t1 s h1] at hr
    by_cases h2 : s.last_status_change < t1
    · have ha : s.accumulate_idle_until t1
          = { s with idle_time := s.idle_time + (t1 - s.last_status_change),
                     last_status_change := t1 } := by
        rw [Staff.accumulate_idle_until, if_pos (by simp [h1, h2])]
      rw [ha] at hr
      have havail : r1.is_available = true ∧ r1.last_status_change = t1 := by
        rcases hr with rfl | rfl
        · exact ⟨h1, rfl⟩
        · rw [Staff.release_from_machine]
          split
          · exact ⟨rfl, rfl⟩
          · exact ⟨h1, rfl⟩
      obtain ⟨hra, hrl⟩ := havail
      have g1 : idleGain t1 s = t1 - s.last_status_change := by
        rw [idleGain, if_pos ⟨h1, h2⟩]
      have g2 : idleGain t2 s = t2 - s.last_status_change := by
        rw [idleGain, if_pos ⟨h1, by omega⟩]
      have g3 : idleGain t2 r1 = t2 - t1 := by
        by_cases h3 : t1 < t2
        · rw [idleGain, if_pos ⟨hra, by omega⟩, hrl]
        · have e : t2 - t1 = 0 := by omega
          rw [idleGain, if_neg (by rintro ⟨_, c⟩; rw [hrl] at c; omega), e]
      rw [g1, g2, g3]
      omega
    · have ha : s.accumulate_idle_until t1 = s := by
        rw [Staff.accumulate_idle_until, if_neg (by simp [h2])]
      rw [ha] at hr
      have g1 : idleGain t1 s = 0 := by
        rw [idleGain, if_neg (by rintro ⟨_, c⟩; exact h2 c)]
      have hcase : (r1.is_available = true ∧
          r1.last_status_change = s.last_status_change) ∨
          (r1.is_available = true ∧ r1.last_status_change = t1) := by
        rcases hr with rfl | rfl
        · exact Or.inl ⟨h1, rfl⟩
        · rw [Staff.release_from_machine]
          split
          · exact Or.inr ⟨rfl, rfl⟩
          · exact Or.inl ⟨h1, rfl⟩
      rcases hcase with ⟨hra, hrl⟩ | ⟨hra, hrl⟩
      · have g3 : idleGain t2 r1 = idleGain t2 s := by
          rw [idleGain, idleGain, hrl]
          by_cases c : s.last_status_change < t2
          · rw [if_pos ⟨hra, c⟩, if_pos ⟨h1, c⟩]
          · rw [if_neg (by rintro ⟨_, d⟩; exact c d),
              if_neg (by rintro ⟨_, d⟩; exact c d)]
        rw [g1, g3]
        omega
      · have g2 : idleGain t2 s ≤ t2 - t1 := by
          rw [idleGain]
          by_cases c : s.last_status_change < t2
          · rw [if_pos ⟨h1, c⟩]
            omega
          · rw [if_neg (by rintro ⟨_, d⟩; exact c d)]
            omega
        have g3 : idleGain t2 r1 = t2 - t1 := by
          by_cases h3 : t1 < t2
          · rw [idleGain, if_pos ⟨hra, by omega⟩, hrl]
          · have e : t2 - t1 = 0 := by omega
            rw [idleGain, if_neg (by rintro ⟨_, c⟩; rw [hrl] at c; omega), e]
        rw [g1, g3]
        omega
  · have h1f : s.is_available = false := by simpa using h1
    have g2 : idleGain t2 s = 0 := by
      rw [idleGain, if_neg (by rintro ⟨c, _⟩; rw [h1f] at c; exact absurd c (by simp))]
    rw [g2]
    omega

/-- Explicit form of `machFix` on a machine that is not operating. -/
theorem machFix_not_op (t : Nat) (m : MachineState) (hop : ¬m.is_operating = true) :
    machFix t m =
      if m.last_status_change < t then
        { m with assigned_staff := [],
                 idle_time := m.idle_time + (t - m.last_status_change),
                 last_status_change := t }
      else { m with assigned_staff := ([] : List Nat) } := by
  rw [machFix, if_neg hop]

/-- A paired machine pass accrues exactly the single pass's idle time. -/
theorem machFix_pair (t1 t2 : Nat) (h12 : t1 ≤ t2) (m : MachineState) :
    (machFix t2 (machFix t1 m)).idle_time = (machFix t2 m).idle_time := by
  by_cases hop : m.is_operating = true
  · simp [machFix, hop]
  · rw [machFix_not_op t1 m hop]
    by_cases hl1 : m.last_status_change < t1
    · rw [if_pos hl1]
      rw [machFix_not_op t2 _ (by exact hop), machFix_not_op t2 m hop]
      dsimp only
      by_cases hl2 : t1 < t2
      · rw [if_pos (by exact hl2), if_pos (by omega)]
        dsimp only
        omega
      · rw [if_neg (by exact hl2), if_pos (by omega)]
        dsimp only
        omega
    · rw [if_neg hl1]
      rw [machFix_not_op t2 _ (by exact hop), machFix_not_op t2 m hop]

/-- A staff pass always leaves a staff member satisfying `StaffInvP`. -/
theorem fso_staffInv (ms : List MachineState) (t : Nat) (s : Staff) :
    StaffInvP t (finalizeStaffOne ms t s) := by
  by_cases h1 : s.is_available = true
  · rw [@fso_avail ms t s h1, Staff.accumulate_idle_until]
    by_cases h2 : s.last_status_change < t
    · rw [if_pos (by simp [h1, h2])]
      exact ⟨fun _ => Nat.le_refl t, fun hf => absurd (h1.symm.trans hf) (by simp)⟩
    · rw [if_neg (by simp [h2])]
      exact ⟨fun _ => by omega, fun hf => absurd (h1.symm.trans hf) (by simp)⟩
  · have h1f : s.is_available = false := by simpa using h1
    by_cases h2 : s.available_at ≤ t
    · rw [@fso_due ms t s h1f h2]
      exact ⟨fun _ => Nat.le_refl t, fun hf => absurd hf (by simp)⟩
    · rw [@fso_early ms t s h1f h2]
      exact ⟨fun ha => absurd (h1f.symm.trans ha) (by simp), fun _ => by omega⟩

/-- A guarded release preserves `StaffInvP`. -/
theorem release_staffInv {t : Nat} {s : Staff} (h : StaffInvP t s) :
    StaffInvP t (s.release_from_machine t) := by
  rw [Staff.release_from_machine]
  split
  · exact ⟨fun _ => Nat.le_refl t, fun hf => absurd hf (by simp)⟩
  · exact h

/-- `RelStep` preserves `StaffInvP`. -/
theorem relStep_staffInv {t : Nat} {x y : Staff} (hr : RelStep t x y)
    (hx : StaffInvP t x) : StaffInvP t y := by
  rcases hr with rfl | rfl
  · exact hx
  · exact release_staffInv hx

/-- A staff member satisfying `StaffInvP` is a fixpoint of the staff
pass. -/
theorem fso_fixpoint {ms : List MachineState} {t : Nat} {x : Staff}
    (hx : StaffInvP t x) : finalizeStaffOne ms t x = x := by
  by_cases h1 : x.is_available = true
  · rw [@fso_avail ms t x h1, Staff.accumulate_idle_until, if_neg]
    have := hx.1 h1
    simp [h1]
    omega
  · have h1f : x.is_available = false := by simpa using h1
    have h2 : ¬x.available_at ≤ t := by
      have := hx.2 h1f
      omega
    exact @fso_early ms t x h1f h2

/-- Members of `releaseFirstById`'s output come from members of its
input by `RelStep`. -/
theorem releaseFirstById_mem (l : List Staff) (sid t : Nat) :
    ∀ y ∈ releaseFirstById l sid t, ∃ x ∈ l, RelStep t x y := by
  induction l with
  | nil => intro y hy; simp [releaseFirstById] at hy
  | cons s rest ih =>
    intro y hy
    rw [releaseFirstById] at hy
    by_cases h : s.id = sid
    · rw [if_pos h] at hy
      rcases List.mem_cons.1 hy with rfl | hy'
      · exact ⟨s, List.mem_cons_self _ _, Or.inr rfl⟩
      · exact ⟨y, List.mem_cons_of_mem _ hy', Or.inl rfl⟩
    · rw [if_neg h] at hy
      rcases List.mem_cons.1 hy with rfl | hy'
      · exact ⟨y, List.mem_cons_self _ _, Or.inl rfl⟩
      · obtain ⟨x, hx, hr⟩ := ih y hy'
        exact ⟨x, List.mem_cons_of_mem _ hx, hr⟩

/-- Members of `releaseAllById`'s output come from members of its input
by `RelStep`. -/
theorem releaseAllById_mem (ids : List Nat) :
    ∀ (l : List Staff) (t : Nat), ∀ y ∈ releaseAllById ids l t,
      ∃ x ∈ l, RelStep t x y := by
  induction ids with
  | nil => intro l t y hy; exact ⟨y, hy, Or.inl rfl⟩
  | cons sid rest ih =>
    intro l t y hy
    rw [releaseAllById] at hy
    obtain ⟨x1, hx1, hr1⟩ := ih (releaseFirstById l sid t) t y hy
    obtain ⟨x0, hx0, hr0⟩ := releaseFirstById_mem l sid t x1 hx1
    exact ⟨x0, hx0, relStep_trans hr0 hr1⟩

/-- Members of the machine loop's staff output come from members of its
staff input by `RelStep`. -/
theorem finalizeMachines_staff_mem (ms : List MachineState) :
    ∀ (l : List Staff) (t : Nat), ∀ y ∈ (finalizeMachines ms l t).2,
      ∃ x ∈ l, RelStep t x y := by
  induction ms with
  | nil => intro l t y hy; exact ⟨y, hy, Or.inl rfl⟩
  | cons m rest ih =>
    intro l t y hy
    rw [finalizeMachines] at hy
    by_cases hop : m.is_operating = true
    · rw [if_pos hop] at hy
      exact ih l t y hy
    · rw [if_neg hop] at hy
      dsimp only at hy
      obtain ⟨x1, hx1, hr1⟩ := ih _ t y hy
      obtain ⟨x0, hx0, hr0⟩ := releaseAllById_mem m.assigned_staff l t x1 hx1
      exact ⟨x0, hx0, relStep_trans hr0 hr1⟩

/-- Every staff member after a `finalize_idle_time` pass satisfies
`StaffInvP`. -/
theorem finalize_staff_staffInv (p : ProductionSimulator) (t : Nat) :
    ∀ x ∈ (p.finalize_idle_time t).staff, StaffInvP t x := by
  intro x hx
  rw [ProductionSimulator.finalize_idle_time] at hx
  dsimp only at hx
  obtain ⟨y, hy, hrel⟩ := finalizeMachines_staff_mem p.machines _ t x hx
  obtain ⟨s0, _, rfl⟩ := List.mem_map.1 hy
  exact relStep_staffInv hrel (fso_staffInv p.machines t s0)

/-- A machine pass always leaves a machine satisfying `MachInvP`. -/
theorem machFix_machInv (t : Nat) (m : MachineState) : MachInvP t (machFix t m) := by
  by_cases hop : m.is_operating = true
  · rw [machFix, if_pos hop]
    intro hf
    exact absurd (hop.symm.trans hf) (by simp)
  · rw [machFix_not_op t m hop]
    by_cases hl : m.last_status_change < t
    · rw [if_pos hl]
      exact fun _ => ⟨rfl, Nat.le_refl t⟩
    · rw [if_neg hl]
      exact fun _ => ⟨rfl, by show t ≤ m.last_status_change; omega⟩

/-- A machine satisfying `MachInvP` is a fixpoint of the machine pass. -/
theorem machFix_id (t : Nat) (m : MachineState) (h : MachInvP t m) :
    machFix t m = m := by
  by_cases hop : m.is_operating = true
  · rw [machFix, if_pos hop]
  · obtain ⟨ha, hl⟩ := h (by simpa using hop)
    rw [machFix_not_op t m hop, if_neg (by omega), ← ha]

/-- The machine loop leaves the staff list alone when every
non-operating machine already holds no staff. -/
theorem finalizeMachines_staff_id (ms : List MachineState) :
    ∀ (l : List Staff) (t : Nat),
      (∀ m ∈ ms, m.is_operating = false → m.assigned_staff = []) →
      (finalizeMachines ms l t).2 = l := by
  induction ms with
  | nil => intro l t _; rfl
  | cons m rest ih =>
    intro l t h
    rw [finalizeMachines]
    by_cases hop : m.is_operating = true
    · rw [if_pos hop]
      exact ih l t (fun x hx => h x (List.mem_cons_of_mem _ hx))
    · rw [if_neg hop]
      dsimp only
      rw [h m (List.mem_cons_self _ _) (by simpa using hop)]
      exact ih l t (fun x hx => h x (List.mem_cons_of_mem _ hx))

/-- A map whose function fixes every member is the identity. -/
theorem map_id_of_mem {α : Type} (l : List α) (f : α → α) (h : ∀ x ∈ l, f x = x) :
    l.map f = l := by
  induction l with
  | nil => rfl
  | cons a as ih =>
    rw [List.map_cons, h a (List.mem_cons_self _ _),
      ih (fun x hx => h x (List.mem_cons_of_mem _ hx))]

/-- `finalize_idle_time` is idempotent at a fixed `now`. -/
theorem finalize_idem (p : ProductionSimulator) (t : Nat) :
    (p.finalize_idle_time t).finalize_idle_time t = p.finalize_idle_time t := by
  have hstaffInv : ∀ x ∈ (p.finalize_idle_time t).staff, StaffInvP t x :=
    finalize_staff_staffInv p t
  have hmachInv : ∀ m ∈ (p.finalize_idle_time t).machines, MachInvP t m := by
    intro m hm
    rw [ProductionSimulator.finalize_idle_time] at hm
    dsimp only at hm
    rw [finalizeMachines_fst] at hm
    obtain ⟨m0, _, rfl⟩ := List.mem_map.1 hm
    exact machFix_machInv t m0
  have hmap : (p.finalize_idle_time t).staff.map
      (finalizeStaffOne (p.finalize_idle_time t).machines t)
      = (p.finalize_idle_time t).staff :=
    map_id_of_mem _ _ (fun x hx => fso_fixpoint (hstaffInv x hx))
  have h2 : finalizeMachines (p.finalize_idle_time t).machines
      (p.finalize_idle_time t).staff t
      = ((p.finalize_idle_time t).machines, (p.finalize_idle_time t).staff) := by
    have e1 : (finalizeMachines (p.finalize_idle_time t).machines
        (p.finalize_idle_time t).staff t).1 = (p.finalize_idle_time t).machines := by
      rw [finalizeMachines_fst,
        map_id_of_mem _ _ (fun m hm => machFix_id t m (hmachInv m hm))]
    have e2 : (finalizeMachines (p.finalize_idle_time t).machines
        (p.finalize_idle_time t).staff t).2 = (p.finalize_idle_time t).staff :=
      finalizeMachines_staff_id _ _ t (fun m hm hop => (hmachInv m hm hop).1)
    have hpair : finalizeMachines (p.finalize_idle_time t).machines
        (p.finalize_idle_time t).staff t
        = ((finalizeMachines (p.finalize_idle_time t).machines (p.finalize_idle_time t).staff t).1, (finalizeMachines (p.finalize_idle_time t).machines (p.finalize_idle_time t).staff t).2) := rfl
    rw [hpair, e1, e2]
  conv_lhs => rw [ProductionSimulator.finalize_idle_time]
  rw [hmap, h2]

/-- One `finalize_idle_time` pass maps `machFix` over the machines. -/
theorem finalize_machines_eq (p : ProductionSimulator) (t : Nat) :
    (p.finalize_idle_time t).machines = p.machines.map (machFix t) := by
  rw [ProductionSimulator.finalize_idle_time]
  dsimp only
  rw [finalizeMachines_fst]

/-- C6: for `t1 ≤ t2`, finalizing at `t1` and then at `t2` leaves every
staff member's and every machine's accumulated idle time at least what a
single finalize at `t2` leaves (position by position), and finalizing
twice at the same time is the same as finalizing once (idempotence, no
double counting). -/
theorem finalize_monotone_idempotent (p : ProductionSimulator) (t1 t2 : Nat)
    (h12 : t1 ≤ t2) :
    (∀ i s1, (p.finalize_idle_time t2).staff.get? i = some s1 →
      ∃ s2, ((p.finalize_idle_time t1).finalize_idle_time t2).staff.get? i = some s2 ∧
        s1.idle_time ≤ s2.idle_time) ∧
    (∀ i m1, (p.finalize_idle_time t2).machines.get? i = some m1 →
      ∃ m2, ((p.finalize_idle_time t1).finalize_idle_time t2).machines.get? i = some m2 ∧
        m1.idle_time ≤ m2.idle_time) ∧
    (p.finalize_idle_time t1).finalize_idle_time t1 = p.finalize_idle_time t1 := by
  refine ⟨?_, ?_, finalize_idem p t1⟩
  · intro i s1 hs1
    have h0 : ∃ s0, p.staff.get? i = some s0 := by
      cases hq : p.staff.get? i with
      | some s0 => exact ⟨s0, rfl⟩
      | none =>
        have hlen := List.get?_eq_none.1 hq
        have hnone : (p.finalize_idle_time t2).staff.get? i = none :=
          List.get?_eq_none.2 (by rw [finalize_staff_length]; exact hlen)
        rw [hnone] at hs1
        cases hs1
    obtain ⟨s0, hs0⟩ := h0
    obtain ⟨rS, hrS, hrelS⟩ := finalize_staff_get p t2 i s0 hs0
    have hs1e : s1 = rS := by
      rw [hs1] at hrS
      exact Option.some.inj hrS
    obtain ⟨r1, hr1, hrel1⟩ := finalize_staff_get p t1 i s0 hs0
    obtain ⟨r2, hr2, hrel2⟩ := finalize_staff_get (p.finalize_idle_time t1) t2 i r1 hr1
    refine ⟨r2, hr2, ?_⟩
    have e1 : rS.idle_time = s0.idle_time + idleGain t2 s0 := by
      rw [relStep_idle hrelS, fso_idle]
    have e2 : r1.idle_time = s0.idle_time + idleGain t1 s0 := by
      rw [relStep_idle hrel1, fso_idle]
    have e3 : r2.idle_time = r1.idle_time + idleGain t2 r1 := by
      rw [relStep_idle hrel2, fso_idle]
    have hg := gain_pair h12 s0 r1 hrel1
    rw [hs1e, e1, e3, e2]
    omega
  · intro i m1 hm1
    rw [finalize_machines_eq] at hm1
    rw [finalize_machines_eq, finalize_machines_eq]
    have h0 : ∃ m0, p.machines.get? i = some m0 := by
      cases hq : p.machines.get? i with
      | some m0 => exact ⟨m0, rfl⟩
      | none =>
        rw [List.get?_map, hq] at hm1
        cases hm1
    obtain ⟨m0, hm0⟩ := h0
    have hm1e : m1 = machFix t2 m0 := by
      rw [List.get?_map, hm0] at hm1
      exact (Option.some.inj hm1.symm)
    refine ⟨machFix t2 (machFix t1 m0), ?_, ?_⟩
    · rw [List.get?_map, List.get?_map, hm0]
      rfl
    · rw [hm1e]
      exact le_of_eq (machFix_pair t1 t2 h12 m0).symm

/-- Witness for C6: double finalize at time 5 on the desynchronized
state equals the single finalize. -/
theorem finalize_monotone_idempotent_witness :
    (desyncProd.finalize_idle_time 5).finalize_idle_time 5
      = desyncProd.finalize_idle_time 5 :=
  (finalize_monotone_idempotent desyncProd 5 9 (by decide)).2.2

end AssemblySim
